import Mathlib

/-!
# Globe: anonymous-output index, serialization, transactions and chain parameters

A shallow embedding of `src/rctindex.h`, `src/anon.h`, `src/primitives/transaction.cpp`,
`src/chainparams.cpp` and `src/outputtype.cpp`.  Byte streams are lists of octets,
fixed-size C arrays are lists with a length proof, machine integers are natural numbers or
integers with their range made explicit, and output objects live in an explicit heap
addressed by shared pointers.
-/

namespace Globe

/-! ## Bytes and streams -/

/-- One octet. -/
abbrev Byte := Fin 256

/-- A fixed-size array of octets (`unsigned char data[n]`). -/
structure Bytes (n : Nat) where
  data : List Byte
  size_eq : data.length = n
deriving DecidableEq

/-- An unsigned 32-bit machine integer (`uint32_t`). -/
abbrev U32 := Fin 4294967296

/-- A signed 32-bit machine integer (`int`). -/
structure CInt where
  val : Int
  lo : -2147483648 ≤ val
  hi : val < 2147483648
deriving DecidableEq

/-- The byte `v mod 256`. -/
def byteOfNat (v : Nat) : Byte := ⟨v % 256, Nat.mod_lt v (by decide)⟩

/-- Little-endian encoding of `v` on `w` octets (`htole32` and a raw write, for `w = 4`). -/
def writeLE : Nat → Nat → List Byte
  | 0, _ => []
  | w + 1, v => byteOfNat v :: writeLE w (v / 256)

/-- Little-endian decoding of a list of octets (a raw read and `le32toh`). -/
def readLE : List Byte → Nat
  | [] => 0
  | b :: bs => b.val + 256 * readLE bs

/-- Reinterpretation of an `int` as the `uint32_t` with the same bit pattern. -/
def CInt.toU32 (i : CInt) : Nat := (i.val % 4294967296).toNat

/-- Reinterpretation of a 32-bit pattern as a two's complement `int`. -/
def CInt.ofU32 (u : Nat) : CInt :=
  if h : u % 4294967296 < 2147483648 then
    ⟨((u % 4294967296 : Nat) : Int), by omega, by omega⟩
  else
    ⟨((u % 4294967296 : Nat) : Int) - 4294967296, by omega, by omega⟩

/-- Modelled from the spec: the data stream of `streams.h`, which is not available: a
sequence of octets written at the end and read from the front. -/
abbrev CDataStream := List Byte

/-- Modelled from the spec: the call `s.write(p, n)` of the stream, which appends the
octets. -/
def CDataStream.write (s : CDataStream) (bs : List Byte) : CDataStream := s ++ bs

/-- Modelled from the spec: the call `s.read(p, n)` of the stream, which takes `n` octets
from the front; reading past the end throws. -/
def CDataStream.read (s : CDataStream) (n : Nat) : Option (Bytes n × CDataStream) :=
  if h : n ≤ s.length then
    some (⟨s.take n, by simp [List.length_take, h]⟩, s.drop n)
  else none

/-! ## Serialized types used by `CAnonOutput` -/

/-- Modelled from the spec: `CCmpPubKey` of `pubkey.h`, which is not available: a
compressed public key of 33 octets, serialized as these 33 octets. -/
structure CCmpPubKey where
  ucdata : Bytes 33
deriving DecidableEq

/-- Modelled from the spec: `secp256k1_pedersen_commitment`, declared in a header that is
not available: a commitment of 33 octets `data[0..32]`. -/
structure secp256k1_pedersen_commitment where
  data : Bytes 33
deriving DecidableEq

/-- Modelled from the spec: `uint256`, declared in a header that is not available: a hash
of 32 octets. -/
structure uint256 where
  data : Bytes 32
deriving DecidableEq

/-- Modelled from the spec: `COutPoint` of `primitives/transaction.h`, which is not
available: the transaction hash and the index of the output in it. -/
structure COutPoint where
  hash : uint256
  n : U32
deriving DecidableEq

/-- Modelled from the spec: `READWRITE(pubkey)` when writing; the serializer of `CCmpPubKey`
(`pubkey.h`, which is not available) writes the 33 octets of the key. -/
def CCmpPubKey.Serialize (k : CCmpPubKey) (s : CDataStream) : CDataStream :=
  s.write k.ucdata.data

/-- Modelled from the spec: `READWRITE(pubkey)` when reading; 33 octets are read into the
key. -/
def CCmpPubKey.Unserialize (s : CDataStream) : Option (CCmpPubKey × CDataStream) :=
  match s.read 33 with
  | some (b, s) => some (⟨b⟩, s)
  | none => none

/-- Modelled from the spec: the serializer of `uint256` (its header is not available)
writes its 32 octets. -/
def uint256.Serialize (h : uint256) (s : CDataStream) : CDataStream :=
  s.write h.data.data

/-- Modelled from the spec: the deserializer of `uint256` reads 32 octets. -/
def uint256.Unserialize (s : CDataStream) : Option (uint256 × CDataStream) :=
  match s.read 32 with
  | some (b, s) => some (⟨b⟩, s)
  | none => none

/-- Modelled from the spec: the write of a 32-bit integer (`ser_writedata32` of
`serialize.h`, which is not available), four octets; the byte order, which the spec leaves
open, is little-endian as everywhere in this serialization format. -/
def ser_writedata32 (s : CDataStream) (v : Nat) : CDataStream :=
  s.write (writeLE 4 v)

/-- Modelled from the spec: the read of a 32-bit integer (`ser_readdata32` of
`serialize.h`, which is not available), four octets in little-endian order. -/
def ser_readdata32 (s : CDataStream) : Option (Nat × CDataStream) :=
  match s.read 4 with
  | some (b, s) => some (readLE b.data, s)
  | none => none

/-- Modelled from the spec: the write of an 8-bit integer (`ser_writedata8` of
`serialize.h`, which is not available), one octet. -/
def ser_writedata8 (s : CDataStream) (v : Byte) : CDataStream :=
  s.write [v]

/-- Modelled from the spec: the read of an 8-bit integer (`ser_readdata8` of `serialize.h`,
which is not available), one octet. -/
def ser_readdata8 (s : CDataStream) : Option (Byte × CDataStream) :=
  match s with
  | b :: s => some (b, s)
  | [] => none

/-- Modelled from the spec: `READWRITE(outpoint)` when writing; the serializer of
`COutPoint` (`primitives/transaction.h`, which is not available) writes the transaction
hash, then the output index on 32 bits. -/
def COutPoint.Serialize (o : COutPoint) (s : CDataStream) : CDataStream :=
  let s := o.hash.Serialize s
  ser_writedata32 s o.n.val

/-- Modelled from the spec: `READWRITE(outpoint)` when reading: the transaction hash, then
the output index on 32 bits. -/
def COutPoint.Unserialize (s : CDataStream) : Option (COutPoint × CDataStream) :=
  match uint256.Unserialize s with
  | none => none
  | some (hash, s) =>
    match ser_readdata32 s with
    | none => none
    | some (n, s) => some (⟨hash, ⟨n % 4294967296, Nat.mod_lt n (by decide)⟩⟩, s)

/-! ## `CAnonOutput` (src/rctindex.h) -/

/-- The record stored in the transaction database under a 64-bit index. -/
structure CAnonOutput where
  pubkey : CCmpPubKey
  commitment : secp256k1_pedersen_commitment
  outpoint : COutPoint
  nBlockHeight : CInt
  nCompromised : Byte
deriving DecidableEq

/-- The method `SerializationOp` with a writing `ser_action` (`ForRead()` is false). -/
def CAnonOutput.Serialize (a : CAnonOutput) (s : CDataStream) : CDataStream :=
  let s := a.pubkey.Serialize s
  let s := s.write a.commitment.data.data
  let s := a.outpoint.Serialize s
  let s := ser_writedata32 s a.nBlockHeight.toU32
  let s := ser_writedata8 s a.nCompromised
  s

/-- The method `SerializationOp` with a reading `ser_action` (`ForRead()` is true).  Every
field of the object is overwritten, so the result does not depend on the object read
into. -/
def CAnonOutput.Unserialize (s : CDataStream) : Option (CAnonOutput × CDataStream) :=
  match CCmpPubKey.Unserialize s with
  | none => none
  | some (pubkey, s) =>
    match s.read 33 with
    | none => none
    | some (c, s) =>
      match COutPoint.Unserialize s with
      | none => none
      | some (outpoint, s) =>
        match ser_readdata32 s with
        | none => none
        | some (h, s) =>
          match ser_readdata8 s with
          | none => none
          | some (f, s) => some (⟨pubkey, ⟨c⟩, outpoint, CInt.ofU32 h, f⟩, s)

/-! ## Protocol constants (src/anon.h) -/

/-- The constant `const size_t MIN_RINGSIZE = 3;`. -/
def MIN_RINGSIZE : Nat := 3

/-- The constant `const size_t MAX_RINGSIZE = 32;`. -/
def MAX_RINGSIZE : Nat := 32

/-- The constant `const size_t MAX_ANON_INPUTS = 32;`. -/
def MAX_ANON_INPUTS : Nat := 32

/-- The constant `const size_t ANON_FEE_MULTIPLIER = 2;`. -/
def ANON_FEE_MULTIPLIER : Nat := 2

/-! ## Anonymous Output Index (spec, sections 4.3 and 6) -/

/-- Modelled from the spec: the Anonymous Output Index, whose code (`anon.cpp`, the block
tree database) is not available.  It is the integer-keyed store mapping a sequence index
to a `CAnonOutput`; the key/value layer offers get, put and erase by key.  The tip the
store also keeps under a singleton key is the highest assigned index, read off the keys
here. -/
structure RCTIndex where
  store : AList (fun _ : Nat => CAnonOutput)

/-- Modelled from the spec: `Resolve(sequenceIndex)`, a lookup that finds nothing when the
index is outside the valid range. -/
def RCTIndex.Resolve (idx : RCTIndex) (k : Nat) : Option CAnonOutput :=
  idx.store.lookup k

/-- Modelled from the spec: `CurrentTip()`, the highest assigned index (0 for an empty
index). -/
def RCTIndex.CurrentTip (idx : RCTIndex) : Nat :=
  idx.store.keys.foldr max 0

/-- Modelled from the spec: `Append(output)`, which assigns the next sequence number
(current max + 1), persists the entry and returns the number. -/
def RCTIndex.Append (idx : RCTIndex) (ao : CAnonOutput) : RCTIndex × Nat :=
  (⟨idx.store.insert (idx.CurrentTip + 1) ao⟩, idx.CurrentTip + 1)

/-- Modelled from the spec: connecting a block appends its anonymous outputs in the order
they appear in the block. -/
def RCTIndex.AppendBlock (idx : RCTIndex) (outputs : List CAnonOutput) : RCTIndex :=
  outputs.foldl (fun i ao => (i.Append ao).1) idx

/-- The sequence indices stored above `nLastValid`. -/
def RCTIndex.keysAbove (idx : RCTIndex) (nLastValid : Int) : List Nat :=
  idx.store.keys.filter (fun k => decide (nLastValid < (k : Int)))

/-! ## Rollback/Checkpoint Manager (spec, section 4.4) -/

/-- Modelled from the spec: the states of the Rollback/Checkpoint Manager. -/
inductive RollbackState
  | Synced
  | RollingBack
  | Failed
deriving DecidableEq

/-- What a call of `RollBackRCTIndex` leaves behind: the returned flag, the index, the
key-image set passed by reference and the state of the manager. -/
structure RollbackResult where
  ok : Bool
  index : RCTIndex
  setKi : List CCmpPubKey
  state : RollbackState

/-- Modelled from the spec: `RollBackRCTIndex` (declared in `anon.h`, defined in
`anon.cpp`, which is not available).  It erases every output whose sequence index is
greater than `nLastValidRCTOutput`; the number erased must equal `nExpectErase` exactly,
otherwise the call fails, nothing is erased and the manager is `Failed`.  While erasing
it collects into `setKi` the key images tracked for the spends of the erased outputs,
given by `spendKi`. -/
def RollBackRCTIndex (spendKi : Nat → List CCmpPubKey) (idx : RCTIndex)
    (nLastValidRCTOutput nExpectErase : Int) (setKi : List CCmpPubKey) : RollbackResult :=
  let doomed := idx.keysAbove nLastValidRCTOutput
  if (doomed.length : Int) = nExpectErase then
    { ok := true
      index := ⟨doomed.foldl (fun s k => s.erase k) idx.store⟩
      setKi := setKi ++ (doomed.map spendKi).flatten
      state := RollbackState.Synced }
  else
    { ok := false, index := idx, setKi := setKi, state := RollbackState.Failed }

/-! ## Transactions as the anonymous subsystem reads them -/

/-- Modelled from the spec: an input of a transaction.  An anonymous input carries its key
image, the sequence indices of its ring members and its signature scalars. -/
inductive TxInput
  | plain (prevout : COutPoint)
  | anon (keyImage : CCmpPubKey) (ring : List Nat) (signature : List Byte)
deriving DecidableEq

/-- Modelled from the spec: an output of a transaction, one of the four variants
(standard, data, confidential, ring-CT).  A ring-CT output is the anonymous output a
transaction introduces, identified by its public key. -/
inductive TxOutput
  | standard (nValue : Int)
  | data (vData : List Byte)
  | ct (commitment : secp256k1_pedersen_commitment) (vRangeproof : List Byte)
  | ringct (pk : CCmpPubKey) (commitment : secp256k1_pedersen_commitment)
      (vRangeproof : List Byte)
deriving DecidableEq

/-- Modelled from the spec: the parts of a transaction the subsystem reads. -/
structure Transaction where
  hash : uint256
  vin : List TxInput
  vpout : List TxOutput
  nFee : Nat
deriving DecidableEq

/-- The key image of an input: one for an anonymous input, none otherwise. -/
def TxInput.keyImages : TxInput → List CCmpPubKey
  | TxInput.plain _ => []
  | TxInput.anon ki _ _ => [ki]

/-- The key images of the anonymous inputs of a transaction, in input order. -/
def Transaction.keyImages (tx : Transaction) : List CCmpPubKey :=
  (tx.vin.map TxInput.keyImages).flatten

/-- The ring sizes of the anonymous inputs of a transaction, in input order. -/
def Transaction.ringSizes (tx : Transaction) : List Nat :=
  tx.vin.filterMap (fun i =>
    match i with
    | TxInput.plain _ => none
    | TxInput.anon _ ring _ => some ring.length)

/-- The public keys of the anonymous outputs a transaction introduces. -/
def Transaction.anonOutputKeys (tx : Transaction) : List CCmpPubKey :=
  tx.vpout.filterMap (fun o =>
    match o with
    | TxOutput.ringct pk _ _ => some pk
    | _ => none)

/-! ## Mempool Key-Image Tracker (spec, section 4.5) -/

/-- Modelled from the spec: the transaction pool as this subsystem sees it, the set of key
images referenced by pending transactions. -/
structure CTxMemPool where
  keyImages : List CCmpPubKey
deriving DecidableEq

/-- Check-and-insert of the key images of one transaction, one after the other.  A key
image already exists when it is among `tracked`, the key images the pool tracks for the
pending transactions at the time of the call; the result is `none` as soon as one does. -/
def CTxMemPool.checkAndInsert (tracked : List CCmpPubKey) :
    CTxMemPool → List CCmpPubKey → Option CTxMemPool
  | pool, [] => some pool
  | pool, ki :: rest =>
    if ki ∈ tracked then none
    else CTxMemPool.checkAndInsert tracked ⟨List.insert ki pool.keyImages⟩ rest

/-- Modelled from the spec: `AddKeyImagesToMempool` (declared in `anon.h`, its definition
is not available).  Every key image of an anonymous input is checked and inserted into the
key-image set of the pool; the call fails, returning false, if any key image already
exists, which signals a double-spend against another pending transaction; the call is
atomic, so after a failure the pool is as before. -/
def AddKeyImagesToMempool (tx : Transaction) (pool : CTxMemPool) : Bool × CTxMemPool :=
  match CTxMemPool.checkAndInsert pool.keyImages pool tx.keyImages with
  | some pool1 => (true, pool1)
  | none => (false, pool)

/-- Modelled from the spec: the failure rule of section 4.5, as a property of any
implementation `add` of `AddKeyImagesToMempool`: the call returns false if any key image
of the transaction already exists in the key-image set of the pool. -/
def FailsOnTrackedKeyImage (add : Transaction → CTxMemPool → Bool × CTxMemPool) : Prop :=
  ∀ (tx : Transaction) (pool : CTxMemPool),
    (∃ ki, ki ∈ tx.keyImages ∧ ki ∈ pool.keyImages) → (add tx pool).1 = false

/-- Modelled from the spec: `RemoveKeyImagesFromMempool` (declared in `anon.h`, its
definition is not available), which removes the key image of a single input of the
transaction `hash`. The spec gives no meaning to the boolean the declaration returns; only
the pool is modelled. -/
def RemoveKeyImagesFromMempool (_hash : uint256) (txin : TxInput) (pool : CTxMemPool) :
    CTxMemPool :=
  ⟨pool.keyImages.filter (fun ki => decide (ki ∉ txin.keyImages))⟩

/-- Removal of the key images of every input of a transaction that leaves the pool. -/
def RemoveTxKeyImages (tx : Transaction) (pool : CTxMemPool) : CTxMemPool :=
  tx.vin.foldl (fun p txin => RemoveKeyImagesFromMempool tx.hash txin p) pool

/-! ## Freshness Guard (spec, section 4.6) -/

/-- Whether a public key is stored at some sequence index of the index. -/
def RCTIndex.HavePubKey (idx : RCTIndex) (pk : CCmpPubKey) : Bool :=
  idx.store.entries.any (fun e => decide (e.2.pubkey = pk))

/-- Modelled from the spec: `AllAnonOutputsUnknown` (declared in `anon.h`, its definition
is not available): for every anonymous output the transaction introduces, its public key
must not exist in the index. The annotation left in the validation state is not described
by the spec; only the returned flag is modelled. -/
def AllAnonOutputsUnknown (idx : RCTIndex) (tx : Transaction) : Bool :=
  tx.anonOutputKeys.all (fun pk => !idx.HavePubKey pk)

/-! ## MLSAG Ring-Signature Verifier (spec, section 4.2) -/

/-- Modelled from the spec: the failure reasons `VerifyMLSAG` reports. -/
inductive MLSAGFailure
  | TooManyAnonInputs
  | BadRingSize
  | UnresolvedRingMember
  | SignatureMismatch
  | BadRangeProof
  | CommitmentImbalance
deriving DecidableEq

/-- Modelled from the spec: the cryptographic primitives library the verifier calls and
does not implement: the ring-signature equation over the resolved ring, the range proof of
an output commitment, and the commitment balance equation with the scaled fee. -/
structure CryptoPrimitives where
  ringSignatureHolds : uint256 → List (CCmpPubKey × secp256k1_pedersen_commitment) →
    CCmpPubKey → List Byte → Bool
  rangeProofHolds : secp256k1_pedersen_commitment → List Byte → Bool
  balanceHolds : List (List secp256k1_pedersen_commitment) →
    List secp256k1_pedersen_commitment → Nat → Bool

/-- Resolution of the ring members of one input; `none` when an index does not resolve. -/
def resolveRing (idx : RCTIndex) : List Nat → Option (List CAnonOutput)
  | [] => some []
  | k :: ks =>
    match idx.Resolve k, resolveRing idx ks with
    | some ao, some rest => some (ao :: rest)
    | _, _ => none

/-- The anonymous inputs of a transaction with their rings resolved; `none` when a ring
member does not resolve. -/
def resolveInputs (idx : RCTIndex) :
    List TxInput → Option (List (CCmpPubKey × List Byte × List CAnonOutput))
  | [] => some []
  | TxInput.plain _ :: rest => resolveInputs idx rest
  | TxInput.anon ki ring sig :: rest =>
    match resolveRing idx ring, resolveInputs idx rest with
    | some members, some others => some ((ki, sig, members) :: others)
    | _, _ => none

/-- The commitments and range proofs of the outputs that hide their value. -/
def Transaction.blindedOutputs (tx : Transaction) :
    List (secp256k1_pedersen_commitment × List Byte) :=
  tx.vpout.filterMap (fun o =>
    match o with
    | TxOutput.ct c rp => some (c, rp)
    | TxOutput.ringct _ c rp => some (c, rp)
    | _ => none)

/-- Modelled from the spec: `VerifyMLSAG` (declared in `anon.h`, defined in `anon.cpp`,
which is not available).  The input constraints are checked first (number of anonymous
inputs, ring sizes), then (a) the ring members are resolved, (b) the ring-signature
equation is run, (c) the range proofs are verified, (d) the commitment balance is
verified with the fee scaled by `ANON_FEE_MULTIPLIER`.  The result is success or the
specific failure reason. -/
def VerifyMLSAG (lib : CryptoPrimitives) (idx : RCTIndex) (tx : Transaction) :
    Except MLSAGFailure Unit :=
  if MAX_ANON_INPUTS < tx.ringSizes.length then
    Except.error MLSAGFailure.TooManyAnonInputs
  else if tx.ringSizes.any (fun r => decide (r < MIN_RINGSIZE ∨ MAX_RINGSIZE < r)) then
    Except.error MLSAGFailure.BadRingSize
  else
    match resolveInputs idx tx.vin with
    | none => Except.error MLSAGFailure.UnresolvedRingMember
    | some inputs =>
      if !inputs.all (fun i =>
          lib.ringSignatureHolds tx.hash
            (i.2.2.map (fun ao => (ao.pubkey, ao.commitment))) i.1 i.2.1) then
        Except.error MLSAGFailure.SignatureMismatch
      else if !tx.blindedOutputs.all (fun o => lib.rangeProofHolds o.1 o.2) then
        Except.error MLSAGFailure.BadRangeProof
      else if !lib.balanceHolds (inputs.map (fun i => i.2.2.map (fun ao => ao.commitment)))
          (tx.blindedOutputs.map (fun o => o.1)) (ANON_FEE_MULTIPLIER * tx.nFee) then
        Except.error MLSAGFailure.CommitmentImbalance
      else
        Except.ok ()

/-! ## Sample values -/

/-- The public key whose 33 octets all equal `b`. -/
def sampleKey (b : Byte) : CCmpPubKey := ⟨⟨List.replicate 33 b, List.length_replicate 33 b⟩⟩

/-- The commitment whose 33 octets all equal `b`. -/
def sampleCommitment (b : Byte) : secp256k1_pedersen_commitment :=
  ⟨⟨List.replicate 33 b, List.length_replicate 33 b⟩⟩

/-- The hash whose 32 octets all equal `b`. -/
def sampleHash (b : Byte) : uint256 := ⟨⟨List.replicate 32 b, List.length_replicate 32 b⟩⟩

/-- An anonymous output built from the octet `b`, created at height 7. -/
def sampleOutput (b : Byte) : CAnonOutput :=
  ⟨sampleKey b, sampleCommitment b, ⟨sampleHash b, 0⟩, ⟨7, by decide, by decide⟩, 0⟩

/-- The empty index. -/
def emptyIndex : RCTIndex := ⟨∅⟩

/-- A transaction with the given hash octet whose anonymous inputs carry the key images
`kis`, each with a ring of the sequence indices 1, 2, 3. -/
def sampleTx (b : Byte) (kis : List CCmpPubKey) : Transaction :=
  ⟨sampleHash b, kis.map (fun ki => TxInput.anon ki [1, 2, 3] []), [], 0⟩

/-- Primitives that accept everything. -/
def acceptAll : CryptoPrimitives := ⟨fun _ _ _ _ => true, fun _ _ => true, fun _ _ _ => true⟩

/-- Primitives that reject everything. -/
def rejectAll : CryptoPrimitives := ⟨fun _ _ _ _ => false, fun _ _ => false, fun _ _ _ => false⟩

/-! ## Chain parameters (src/chainparams.cpp) -/

/-- The fields of `Consensus::Params` that fix the proof-of-work timing and the activation
of rule changes, as the constructors of the chain parameters set them. -/
structure ConsensusParams where
  nPowTargetTimespan : Int
  nPowTargetSpacing : Int
  nRuleChangeActivationThreshold : Nat
  nMinerConfirmationWindow : Nat
deriving DecidableEq

/-- The constructor `CMainParams::CMainParams()`. -/
def CMainParams : ConsensusParams :=
  { nPowTargetTimespan := 16 * 60
    nPowTargetSpacing := 2 * 64
    nRuleChangeActivationThreshold := 1916
    nMinerConfirmationWindow := 2016 }

/-- The constructor `CTestNetParams::CTestNetParams()`. -/
def CTestNetParams : ConsensusParams :=
  { nPowTargetTimespan := 16 * 60
    nPowTargetSpacing := 2 * 64
    nRuleChangeActivationThreshold := 1512
    nMinerConfirmationWindow := 2016 }

/-- The constructor `CRegTestParams::CRegTestParams()`. -/
def CRegTestParams : ConsensusParams :=
  { nPowTargetTimespan := 16 * 60
    nPowTargetSpacing := 2 * 64
    nRuleChangeActivationThreshold := 108
    nMinerConfirmationWindow := 144 }

/-- The constructor `CUnitTestParams::CUnitTestParams()`: the regression-test parameters
with the threshold and the window overwritten. -/
def CUnitTestParams : ConsensusParams :=
  { CRegTestParams with
    nRuleChangeActivationThreshold := 558
    nMinerConfirmationWindow := 744 }

/-- The chains `CreateChainParams` knows. -/
inductive Chain
  | MAIN
  | TESTNET
  | REGTEST
  | UNITTEST
deriving DecidableEq

/-- The function `CreateChainParams` on the chains it knows. -/
def CreateChainParams : Chain → ConsensusParams
  | Chain.MAIN => CMainParams
  | Chain.TESTNET => CTestNetParams
  | Chain.REGTEST => CRegTestParams
  | Chain.UNITTEST => CUnitTestParams

/-- The percentage the comment beside `nRuleChangeActivationThreshold` documents: 95% on the
main network, 75% for the test chains. -/
def documentedThresholdPercent : Chain → Nat
  | Chain.MAIN => 95
  | _ => 75

/-- The share `percent` of `window` blocks, rounded up to a whole block. -/
def percentRoundedUp (percent window : Nat) : Nat := (percent * window + 99) / 100

/-! ## Transaction outputs (src/primitives/transaction.cpp) -/

/-- A script (`CScript`), a sequence of octets. -/
abbrev CScript := List Byte

/-- An amount (`CAmount`, a signed 64-bit machine integer). -/
structure CAmount where
  val : Int
  lo : -9223372036854775808 ≤ val
  hi : val < 9223372036854775808
deriving DecidableEq

/-- The amount zero. -/
def CAmount.zero : CAmount := ⟨0, by decide, by decide⟩

/-- The 64-bit two's complement value of an integer: the result of a signed addition
that wraps around. -/
def CAmount.wrap (x : Int) : CAmount :=
  if h : x % 18446744073709551616 < 9223372036854775808 then
    ⟨x % 18446744073709551616, by omega, h⟩
  else
    ⟨x % 18446744073709551616 - 18446744073709551616, by omega, by omega⟩

/-- Whether the exact sum of two amounts leaves the range of a signed 64-bit integer. -/
def CAmount.addOverflows (a b : CAmount) : Bool :=
  decide (a.val + b.val < -9223372036854775808 ∨ 9223372036854775808 ≤ a.val + b.val)

/-- A counter of type `size_t`, an unsigned 64-bit machine integer. -/
abbrev size_t := Fin 18446744073709551616

/-- The increment `n++` of a `size_t`, which wraps around at 2^64. -/
def size_t.incr (n : size_t) : size_t :=
  ⟨(n.val + 1) % 18446744073709551616, Nat.mod_lt _ (by decide)⟩

/-- Modelled from the spec: the type tag `nVersion` of an output, whose constants are
declared in `primitives/transaction.h`, which is not available.  The four constants are the
case labels of the `switch` in `DeepCopy`, so they are pairwise distinct; `OTHER` stands
for every other value of the tag. -/
inductive OutputTypes
  | OUTPUT_STANDARD
  | OUTPUT_CT
  | OUTPUT_RINGCT
  | OUTPUT_DATA
  | OTHER (v : Nat)
deriving DecidableEq

/-- Modelled from the spec: an output object.  The classes are declared in
`primitives/transaction.h`, which is not available; `transaction.cpp` names the members
`nValue`, `scriptPubKey`, `vData` and `pk`, the commitment and the range proof are those the
spec gives to confidential and ring-CT outputs.  An object is of one of the four classes
`CTxOutStandard`, `CTxOutCT`, `CTxOutRingCT`, `CTxOutData`, or a `CTxOutBase` with another
tag. -/
inductive CTxOutBase
  | Standard (nValue : CAmount) (scriptPubKey : CScript)
  | CT (commitment : secp256k1_pedersen_commitment) (vData : List Byte)
      (scriptPubKey : CScript) (vRangeproof : List Byte)
  | RingCT (pk : CCmpPubKey) (commitment : secp256k1_pedersen_commitment)
      (vData : List Byte) (vRangeproof : List Byte)
  | Data (vData : List Byte)
  | Plain (v : Nat)
deriving DecidableEq

/-- The member `nVersion`: the tag the constructor of each class passes to `CTxOutBase`
(`CTxOutStandard` passes `OUTPUT_STANDARD`), never assigned afterwards. -/
def CTxOutBase.nVersion : CTxOutBase → OutputTypes
  | CTxOutBase.Standard _ _ => OutputTypes.OUTPUT_STANDARD
  | CTxOutBase.CT _ _ _ _ => OutputTypes.OUTPUT_CT
  | CTxOutBase.RingCT _ _ _ _ => OutputTypes.OUTPUT_RINGCT
  | CTxOutBase.Data _ => OutputTypes.OUTPUT_DATA
  | CTxOutBase.Plain v => OutputTypes.OTHER v

/-- Modelled from the spec: `GetType()` of `primitives/transaction.h`, which is not
available: the type tag. -/
def CTxOutBase.GetType (o : CTxOutBase) : OutputTypes := o.nVersion

/-- Modelled from the spec: `IsType(nType)` of `primitives/transaction.h`, which is not
available: whether the type tag is `nType`. -/
def CTxOutBase.IsType (o : CTxOutBase) (nType : OutputTypes) : Bool :=
  decide (o.nVersion = nType)

/-- Modelled from the spec: `IsStandardOutput()` of `primitives/transaction.h`, which is not
available: whether the type tag is `OUTPUT_STANDARD`. -/
def CTxOutBase.IsStandardOutput (o : CTxOutBase) : Bool :=
  decide (o.nVersion = OutputTypes.OUTPUT_STANDARD)

/-- The ways a call can end without returning. -/
inductive Fault
  | assertFailed
  | runtimeError
  | nullPointer
  | badCast
deriving DecidableEq

/-- The method `CTxOutBase::GetValue`: the assertion on the tag, then the member `nValue`
of the object seen as a `CTxOutStandard`. -/
def CTxOutBase.GetValue (o : CTxOutBase) : Except Fault CAmount :=
  if o.nVersion = OutputTypes.OUTPUT_STANDARD then
    match o with
    | CTxOutBase.Standard nValue _ => Except.ok nValue
    | _ => Except.error Fault.badCast
  else Except.error Fault.assertFailed

/-- The method `CTxOutBase::SetValue`: the assertion on the tag, then the assignment of the
member `nValue` of the object seen as a `CTxOutStandard`; the object after the call. -/
def CTxOutBase.SetValue (o : CTxOutBase) (value : CAmount) : Except Fault CTxOutBase :=
  if o.nVersion = OutputTypes.OUTPUT_STANDARD then
    match o with
    | CTxOutBase.Standard _ scriptPubKey => Except.ok (CTxOutBase.Standard value scriptPubKey)
    | _ => Except.error Fault.badCast
  else Except.error Fault.assertFailed

/-! ## Shared pointers to outputs -/

/-- The objects allocated so far; the address of an object is its position. -/
abbrev Heap := List CTxOutBase

/-- A shared pointer `CTxOutBaseRef`: null or the address of an object. -/
abbrev CTxOutBaseRef := Option Nat

/-- The object a pointer refers to; nothing for the null pointer. -/
def Heap.deref (h : Heap) (r : CTxOutBaseRef) : Option CTxOutBase :=
  match r with
  | none => none
  | some a => h[a]?

/-- Modelled from the spec: `MAKE_OUTPUT<T>()` of `primitives/transaction.h`, which is not
available: a new object of class `T`, here with initial members `o`, at an address not used
before. -/
def Heap.MAKE_OUTPUT (h : Heap) (o : CTxOutBase) : Heap × CTxOutBaseRef :=
  (h ++ [o], some h.length)

/-- The assignment `*pto = o` through a pointer. -/
def Heap.assign (h : Heap) (pto : CTxOutBaseRef) (o : CTxOutBase) : Except Fault Heap :=
  match pto with
  | none => Except.error Fault.nullPointer
  | some a => if a < h.length then Except.ok (h.set a o) else Except.error Fault.nullPointer

/-- A default-constructed object of the class with the given tag. -/
def CTxOutBase.default : OutputTypes → CTxOutBase
  | OutputTypes.OUTPUT_STANDARD => CTxOutBase.Standard CAmount.zero []
  | OutputTypes.OUTPUT_CT =>
    CTxOutBase.CT ⟨⟨List.replicate 33 0, List.length_replicate 33 0⟩⟩ [] [] []
  | OutputTypes.OUTPUT_RINGCT =>
    CTxOutBase.RingCT ⟨⟨List.replicate 33 0, List.length_replicate 33 0⟩⟩
      ⟨⟨List.replicate 33 0, List.length_replicate 33 0⟩⟩ [] []
  | OutputTypes.OUTPUT_DATA => CTxOutBase.Data []
  | OutputTypes.OTHER v => CTxOutBase.Plain v

/-- The function `DeepCopy(CTxOutBaseRef &to, const CTxOutBaseRef &from)`: the heap and the
pointer `to` (here `pto`) after the call.  In each of the four cases a new object of the
class is made and the object `from` points to is assigned to it; for any other tag the
pointer is left as it is. -/
def DeepCopyRef (h : Heap) (pto vfrom : CTxOutBaseRef) :
    Except Fault (Heap × CTxOutBaseRef) :=
  match h.deref vfrom with
  | none => Except.error Fault.nullPointer
  | some o =>
    match o.GetType with
    | OutputTypes.OUTPUT_STANDARD =>
      match h.MAKE_OUTPUT (CTxOutBase.default OutputTypes.OUTPUT_STANDARD) with
      | (h1, to1) => (h1.assign to1 o).map (fun h2 => (h2, to1))
    | OutputTypes.OUTPUT_CT =>
      match h.MAKE_OUTPUT (CTxOutBase.default OutputTypes.OUTPUT_CT) with
      | (h1, to1) => (h1.assign to1 o).map (fun h2 => (h2, to1))
    | OutputTypes.OUTPUT_RINGCT =>
      match h.MAKE_OUTPUT (CTxOutBase.default OutputTypes.OUTPUT_RINGCT) with
      | (h1, to1) => (h1.assign to1 o).map (fun h2 => (h2, to1))
    | OutputTypes.OUTPUT_DATA =>
      match h.MAKE_OUTPUT (CTxOutBase.default OutputTypes.OUTPUT_DATA) with
      | (h1, to1) => (h1.assign to1 o).map (fun h2 => (h2, to1))
    | OutputTypes.OTHER _ => Except.ok (h, pto)

/-- The function `DeepCopy(const std::vector<CTxOutBaseRef> &from)`: the result vector is
resized to the size of `from`, so each of its elements starts as the null pointer, and
element `i` is then set by `DeepCopy(vpout[i], from[i])`, for `i` from 0 upwards. -/
def DeepCopy (h : Heap) : List CTxOutBaseRef → Except Fault (Heap × List CTxOutBaseRef)
  | [] => Except.ok (h, [])
  | r :: rest =>
    match DeepCopyRef h none r with
    | Except.error e => Except.error e
    | Except.ok (h1, pto) =>
      match DeepCopy h1 rest with
      | Except.error e => Except.error e
      | Except.ok (h2, vpout) => Except.ok (h2, pto :: vpout)

/-! ## Transactions (src/primitives/transaction.cpp) -/

/-- An input `CTxIn`, with the members its constructors set. -/
structure CTxIn where
  prevout : COutPoint
  scriptSig : CScript
  nSequence : U32
deriving DecidableEq

/-- An output `CTxOut` of the vector `vout`. -/
structure CTxOut where
  nValue : CAmount
  scriptPubKey : CScript
deriving DecidableEq

/-- The members of a `CTransaction` the constructors copy. -/
structure CTransaction where
  vin : List CTxIn
  vout : List CTxOut
  vpout : List CTxOutBaseRef
  nVersion : CInt
  nLockTime : U32
deriving DecidableEq

/-- Modelled from the spec: `MoneyRange` of `amount.h`, which is not available: whether an
amount lies in the money range from 0 to `MAX_MONEY`.  The constant `MAX_MONEY` is a
parameter. -/
def MoneyRange (MAX_MONEY : CAmount) (nValue : CAmount) : Bool :=
  decide (0 ≤ nValue.val ∧ nValue.val ≤ MAX_MONEY.val)

/-- The accumulator `nValueOut` together with a record of whether an addition into it has
left the range of a signed 64-bit integer. -/
structure Accumulator where
  nValueOut : CAmount
  overflowed : Bool
deriving DecidableEq

/-- The statement `nValueOut += nValue`. -/
def Accumulator.add (acc : Accumulator) (nValue : CAmount) : Accumulator :=
  ⟨CAmount.wrap (acc.nValueOut.val + nValue.val),
    acc.overflowed || acc.nValueOut.addOverflows nValue⟩

/-- The first loop of `CTransaction::GetValueOut`, over `vout`. -/
def GetValueOut.loopVout (MAX_MONEY : CAmount) :
    List CTxOut → Accumulator → Except Fault Accumulator
  | [], acc => Except.ok acc
  | tx_out :: rest, acc =>
    if !MoneyRange MAX_MONEY tx_out.nValue
        || !MoneyRange MAX_MONEY (acc.add tx_out.nValue).nValueOut then
      Except.error Fault.runtimeError
    else GetValueOut.loopVout MAX_MONEY rest (acc.add tx_out.nValue)

/-- The second loop of `CTransaction::GetValueOut`, over `vpout`. -/
def GetValueOut.loopVpout (MAX_MONEY : CAmount) (h : Heap) :
    List CTxOutBaseRef → Accumulator → Except Fault Accumulator
  | [], acc => Except.ok acc
  | txout :: rest, acc =>
    match h.deref txout with
    | none => Except.error Fault.nullPointer
    | some o =>
      if !o.IsStandardOutput then GetValueOut.loopVpout MAX_MONEY h rest acc
      else
        match o.GetValue, o.GetValue with
        | Except.ok nValue, Except.ok v2 =>
          if !MoneyRange MAX_MONEY nValue || !MoneyRange MAX_MONEY (acc.add v2).nValueOut then
            Except.error Fault.runtimeError
          else GetValueOut.loopVpout MAX_MONEY h rest (acc.add v2)
        | Except.error e, _ => Except.error e
        | _, Except.error e => Except.error e

/-- The method `CTransaction::GetValueOut`: the value returned, with the record of
overflow. -/
def CTransaction.GetValueOut (MAX_MONEY : CAmount) (h : Heap) (tx : CTransaction) :
    Except Fault Accumulator :=
  match GetValueOut.loopVout MAX_MONEY tx.vout ⟨CAmount.zero, false⟩ with
  | Except.error e => Except.error e
  | Except.ok acc => GetValueOut.loopVpout MAX_MONEY h tx.vpout acc

/-- The variables of `CTransaction::GetPlainValueOut`: the accumulator and the three
counters passed by reference. -/
structure PlainState where
  nValueOut : CAmount
  nStandard : size_t
  nCT : size_t
  nRingCT : size_t
deriving DecidableEq

/-- The loop of `CTransaction::GetPlainValueOut`, over `vpout`.  When the loop throws, the
increments made so far are not part of the result. -/
def GetPlainValueOut.loop (MAX_MONEY : CAmount) (h : Heap) :
    List CTxOutBaseRef → PlainState → Except Fault PlainState
  | [], st => Except.ok st
  | txout :: rest, st =>
    match h.deref txout with
    | none => Except.error Fault.nullPointer
    | some o =>
      let st1 : PlainState :=
        if o.IsType OutputTypes.OUTPUT_CT then { st with nCT := st.nCT.incr }
        else if o.IsType OutputTypes.OUTPUT_RINGCT then { st with nRingCT := st.nRingCT.incr }
        else st
      if !o.IsStandardOutput then GetPlainValueOut.loop MAX_MONEY h rest st1
      else
        let st2 : PlainState := { st1 with nStandard := st1.nStandard.incr }
        match o.GetValue with
        | Except.error e => Except.error e
        | Except.ok nValue =>
          let st3 : PlainState :=
            { st2 with nValueOut := CAmount.wrap (st2.nValueOut.val + nValue.val) }
          if !MoneyRange MAX_MONEY nValue || !MoneyRange MAX_MONEY st3.nValueOut then
            Except.error Fault.runtimeError
          else GetPlainValueOut.loop MAX_MONEY h rest st3

/-- The method `CTransaction::GetPlainValueOut`: the counters are taken as they are passed
in, the accumulator starts at 0; the state at the return holds the value returned and the
counters. -/
def CTransaction.GetPlainValueOut (MAX_MONEY : CAmount) (h : Heap) (tx : CTransaction)
    (nStandard nCT nRingCT : size_t) : Except Fault PlainState :=
  GetPlainValueOut.loop MAX_MONEY h tx.vpout ⟨CAmount.zero, nStandard, nCT, nRingCT⟩

/-- The four type tags `DeepCopy` distinguishes. -/
def fourVariants : List OutputTypes :=
  [OutputTypes.OUTPUT_STANDARD, OutputTypes.OUTPUT_CT, OutputTypes.OUTPUT_RINGCT,
    OutputTypes.OUTPUT_DATA]

/-- A heap with one object of each of the four classes and one of another tag. -/
def sampleHeap : Heap :=
  [CTxOutBase.Standard ⟨5, by decide, by decide⟩ [1],
    CTxOutBase.Data [2, 3],
    CTxOutBase.CT (sampleCommitment 4) [5] [6] [7],
    CTxOutBase.RingCT (sampleKey 8) (sampleCommitment 9) [10] [11],
    CTxOutBase.Plain 0]

/-- The amounts of the standard outputs among the objects a vector points to, in order. -/
def standardValues (h : Heap) (vpout : List CTxOutBaseRef) : List CAmount :=
  vpout.filterMap (fun r =>
    match h.deref r with
    | some (CTxOutBase.Standard nValue _) => some nValue
    | _ => none)

/-- The exact sum of a list of amounts. -/
def sumAmounts (l : List CAmount) : Int := (l.map CAmount.val).sum

/-- The number of elements of a vector that point to an object with the tag `t`. -/
def countType (h : Heap) (vpout : List CTxOutBaseRef) (t : OutputTypes) : Nat :=
  vpout.countP (fun r =>
    match h.deref r with
    | some o => decide (o.nVersion = t)
    | none => false)

/-- The step both loops of `GetValueOut` apply to each amount they read: add it, then throw
unless the amount and the accumulator are in the money range. -/
def accumulate (MAX_MONEY : CAmount) : List CAmount → Accumulator → Except Fault Accumulator
  | [], acc => Except.ok acc
  | nValue :: rest, acc =>
    if !MoneyRange MAX_MONEY nValue || !MoneyRange MAX_MONEY (acc.add nValue).nValueOut then
      Except.error Fault.runtimeError
    else accumulate MAX_MONEY rest (acc.add nValue)

/-- The largest amount Bitcoin allows, 21 million coins of 10^8 units, as a sample value
of the parameter `MAX_MONEY`. -/
def sampleMaxMoney : CAmount := ⟨2100000000000000, by decide, by decide⟩

/-- A transaction with one `vout` output and pointers to the first four sample objects. -/
def sampleCTransaction : CTransaction :=
  { vin := []
    vout := [⟨⟨3, by decide, by decide⟩, []⟩]
    vpout := [some 0, some 1, some 2, some 3]
    nVersion := ⟨2, by decide, by decide⟩
    nLockTime := 0 }

/-! ## Output types of the wallet (src/outputtype.cpp) -/

/-- A `std::string`, a sequence of octets. -/
abbrev std_string := List Byte

/-- The `std::string` holding the ASCII text `s`. -/
def ofAscii (s : String) : std_string := s.toList.map (fun c => byteOfNat c.toNat)

/-- The constant `OUTPUT_TYPE_STRING_LEGACY`. -/
def OUTPUT_TYPE_STRING_LEGACY : std_string := ofAscii "legacy"

/-- The constant `OUTPUT_TYPE_STRING_P2SH_SEGWIT`. -/
def OUTPUT_TYPE_STRING_P2SH_SEGWIT : std_string := ofAscii "p2sh-segwit"

/-- The constant `OUTPUT_TYPE_STRING_BECH32`. -/
def OUTPUT_TYPE_STRING_BECH32 : std_string := ofAscii "bech32"

/-- Modelled from the spec: the enumeration `OutputType` of `outputtype.h`, which is not
available.  `LEGACY`, `P2SH_SEGWIT` and `BECH32` are the case labels of the `switch` in
`FormatOutputType`; `OTHER` stands for every other value, which the `default` label of
that `switch` receives. -/
inductive OutputType
  | LEGACY
  | P2SH_SEGWIT
  | BECH32
  | OTHER (v : Nat)
deriving DecidableEq

/-- The function `ParseOutputType`: the flag returned and `output_type` after the call. -/
def ParseOutputType (type : std_string) (output_type : OutputType) : Bool × OutputType :=
  if type = OUTPUT_TYPE_STRING_LEGACY then (true, OutputType.LEGACY)
  else if type = OUTPUT_TYPE_STRING_P2SH_SEGWIT then (true, OutputType.P2SH_SEGWIT)
  else if type = OUTPUT_TYPE_STRING_BECH32 then (true, OutputType.BECH32)
  else (false, output_type)

/-- The function `FormatOutputType`; the `default` label ends in `assert(false)`. -/
def FormatOutputType : OutputType → Except Fault std_string
  | OutputType.LEGACY => Except.ok OUTPUT_TYPE_STRING_LEGACY
  | OutputType.P2SH_SEGWIT => Except.ok OUTPUT_TYPE_STRING_P2SH_SEGWIT
  | OutputType.BECH32 => Except.ok OUTPUT_TYPE_STRING_BECH32
  | OutputType.OTHER _ => Except.error Fault.assertFailed

/-! ## Mutable transactions and hashes (src/primitives/transaction.cpp) -/

/-- The members of a `CMutableTransaction`. -/
structure CMutableTransaction where
  vin : List CTxIn
  vout : List CTxOut
  vpout : List CTxOutBaseRef
  nVersion : CInt
  nLockTime : U32
deriving DecidableEq

/-- A constructed `CTransaction`: the members copied, and the members `hash` and
`m_witness_hash` computed once by the constructor. -/
structure CachedTransaction extends CTransaction where
  hash : uint256
  m_witness_hash : uint256
deriving DecidableEq

/-- Modelled from the spec: the parts of `hash.h` and `primitives/transaction.h`, which are
not available, that the hashes go through.  `SerializeHash` hashes the serialization of a
transaction, which both classes produce with the same serializer from the members `vin`,
`vout`, `vpout` (the objects pointed to), `nVersion` and `nLockTime`, under the given
version flags; `HasWitness` tells whether an input carries witness data. -/
structure HashPrimitives where
  SerializeHash : Nat → List CTxIn → List CTxOut → List (Option CTxOutBase) → CInt → U32 →
    uint256
  HasWitness : List CTxIn → Bool

/-- The flag `SERIALIZE_TRANSACTION_NO_WITNESS`. -/
def SERIALIZE_TRANSACTION_NO_WITNESS : Nat := 1073741824

/-- The method `CMutableTransaction::GetHash`. -/
def CMutableTransaction.GetHash (lib : HashPrimitives) (h : Heap) (m : CMutableTransaction) :
    uint256 :=
  lib.SerializeHash SERIALIZE_TRANSACTION_NO_WITNESS m.vin m.vout (m.vpout.map h.deref)
    m.nVersion m.nLockTime

/-- The method `CTransaction::ComputeHash`. -/
def CTransaction.ComputeHash (lib : HashPrimitives) (h : Heap) (tx : CTransaction) : uint256 :=
  lib.SerializeHash SERIALIZE_TRANSACTION_NO_WITNESS tx.vin tx.vout (tx.vpout.map h.deref)
    tx.nVersion tx.nLockTime

/-- The method `CTransaction::ComputeWitnessHash`, given the member `hash`. -/
def CTransaction.ComputeWitnessHash (lib : HashPrimitives) (h : Heap) (tx : CTransaction)
    (hash : uint256) : uint256 :=
  if !lib.HasWitness tx.vin then hash
  else lib.SerializeHash 0 tx.vin tx.vout (tx.vpout.map h.deref) tx.nVersion tx.nLockTime

/-- The constructor `CTransaction::CTransaction(const CMutableTransaction &tx)`: the members
are copied, `vpout` through `DeepCopy`, then the two hashes are computed.  The source line
has no comma between the initializers of `vpout` and `nVersion`; it is read as the
initializer list of the two sibling constructors. -/
def CTransaction.ofMutable (lib : HashPrimitives) (h : Heap) (m : CMutableTransaction) :
    Except Fault (Heap × CachedTransaction) :=
  match DeepCopy h m.vpout with
  | Except.error e => Except.error e
  | Except.ok (h1, vpout) =>
    Except.ok (h1,
      { vin := m.vin
        vout := m.vout
        vpout := vpout
        nVersion := m.nVersion
        nLockTime := m.nLockTime
        hash :=
          CTransaction.ComputeHash lib h1 ⟨m.vin, m.vout, vpout, m.nVersion, m.nLockTime⟩
        m_witness_hash :=
          CTransaction.ComputeWitnessHash lib h1
            ⟨m.vin, m.vout, vpout, m.nVersion, m.nLockTime⟩
            (CTransaction.ComputeHash lib h1
              ⟨m.vin, m.vout, vpout, m.nVersion, m.nLockTime⟩) })

/-- Modelled from the spec: `CTransaction::GetHash` of `primitives/transaction.h`, which is
not available: the member `hash`. -/
def CachedTransaction.GetHash (tx : CachedTransaction) : uint256 := tx.hash

/-- The constructor `CMutableTransaction::CMutableTransaction(const CTransaction& tx)`: the
members are copied, `vpout` through `DeepCopy`. -/
def CMutableTransaction.ofTransaction (h : Heap) (tx : CTransaction) :
    Except Fault (Heap × CMutableTransaction) :=
  match DeepCopy h tx.vpout with
  | Except.error e => Except.error e
  | Except.ok (h1, vpout) =>
    Except.ok (h1,
      { vin := tx.vin
        vout := tx.vout
        vpout := vpout
        nVersion := tx.nVersion
        nLockTime := tx.nLockTime })

/-- A hash function for sample values: it tells apart the numbers of inputs, outputs and
standard objects it is given. -/
def sampleHashPrimitives : HashPrimitives :=
  { SerializeHash := fun flags vin vout vpout _ _ =>
      sampleHash (byteOfNat (flags + vin.length + 2 * vout.length + 4 * vpout.length))
    HasWitness := fun _ => false }

/-- A mutable transaction pointing to the first four sample objects. -/
def sampleMutableTransaction : CMutableTransaction :=
  { vin := []
    vout := [⟨⟨3, by decide, by decide⟩, []⟩]
    vpout := [some 0, some 1, some 2, some 3]
    nVersion := ⟨2, by decide, by decide⟩
    nLockTime := 0 }

end Globe

/-! ## Serialization of `CAnonOutput` -/

namespace Globe

theorem writeLE_length (w v : Nat) : (writeLE w v).length = w := by
  induction w generalizing v with
  | zero => rfl
  | succ w ih => simp [writeLE, ih]

theorem readLE_writeLE (w v : Nat) : readLE (writeLE w v) = v % 256 ^ w := by
  induction w generalizing v with
  | zero => simp [writeLE, readLE, Nat.mod_one]
  | succ w ih =>
    simp only [writeLE, readLE, byteOfNat, ih]
    rw [pow_succ, Nat.mul_comm (256 ^ w) 256, Nat.mod_mul]

theorem CInt.ofU32_toU32 (i : CInt) : CInt.ofU32 i.toU32 = i := by
  obtain ⟨v, lo, hi⟩ := i
  have h0 : 0 ≤ v % 4294967296 := Int.emod_nonneg v (by decide)
  have h1 : v % 4294967296 < 4294967296 := Int.emod_lt_of_pos v (by decide)
  have hu : (((v % 4294967296).toNat : Nat) : Int) = v % 4294967296 := Int.toNat_of_nonneg h0
  have hm : (v % 4294967296).toNat % 4294967296 = (v % 4294967296).toNat := by
    apply Nat.mod_eq_of_lt
    omega
  simp only [CInt.ofU32, CInt.toU32, hm]
  split <;> simp only [CInt.mk.injEq] <;> omega

/-- The octets `CAnonOutput::SerializationOp` writes, field after field. -/
theorem CAnonOutput.Serialize_eq (a : CAnonOutput) (s : CDataStream) :
    a.Serialize s = s ++ (a.pubkey.ucdata.data ++ (a.commitment.data.data ++
      (a.outpoint.hash.data.data ++ (writeLE 4 a.outpoint.n.val ++
        (writeLE 4 a.nBlockHeight.toU32 ++ [a.nCompromised]))))) := by
  simp [CAnonOutput.Serialize, CCmpPubKey.Serialize, COutPoint.Serialize, uint256.Serialize,
    ser_writedata32, ser_writedata8, CDataStream.write, List.append_assoc]

theorem CDataStream.read_append {n : Nat} (b : Bytes n) (rest : CDataStream) :
    CDataStream.read (b.data ++ rest) n = some (b, rest) := by
  obtain ⟨d, hd⟩ := b
  subst hd
  simp [CDataStream.read]

theorem ser_readdata32_append (v : Nat) (rest : CDataStream) :
    ser_readdata32 (writeLE 4 v ++ rest) = some (v % 4294967296, rest) := by
  have h := CDataStream.read_append ⟨writeLE 4 v, writeLE_length 4 v⟩ rest
  simp only at h
  simp only [ser_readdata32, h, readLE_writeLE]
  rfl

/-- C1: for every `CAnonOutput`, serialization appends exactly 107 octets to the stream, in
this order: the 33 octets of the public key, the 33 octets of the commitment, the outpoint
(the 32 octets of the transaction hash, then the output index on 32 bits), the block
height on 32 bits and the compromised flag on one octet. -/
theorem CAnonOutput_Serialize_layout (a : CAnonOutput) (s : CDataStream) :
    a.Serialize s = s ++ a.Serialize [] ∧
    (a.Serialize []).length = 107 ∧
    (a.Serialize []).take 33 = a.pubkey.ucdata.data ∧
    ((a.Serialize []).drop 33).take 33 = a.commitment.data.data ∧
    ((a.Serialize []).drop 66).take 32 = a.outpoint.hash.data.data ∧
    ((a.Serialize []).drop 98).take 4 = writeLE 4 a.outpoint.n.val ∧
    ((a.Serialize []).drop 102).take 4 = writeLE 4 a.nBlockHeight.toU32 ∧
    (a.Serialize []).drop 106 = [a.nCompromised] := by
  have hp := a.pubkey.ucdata.size_eq
  have hc := a.commitment.data.size_eq
  have hh := a.outpoint.hash.data.size_eq
  have hn := writeLE_length 4 a.outpoint.n.val
  have hb := writeLE_length 4 a.nBlockHeight.toU32
  rw [CAnonOutput.Serialize_eq a s, CAnonOutput.Serialize_eq a []]
  generalize a.pubkey.ucdata.data = p at hp
  generalize a.commitment.data.data = c at hc
  generalize a.outpoint.hash.data.data = h at hh
  generalize writeLE 4 a.outpoint.n.val = n at hn
  generalize writeLE 4 a.nBlockHeight.toU32 = b at hb
  refine ⟨by simp, by simp [hp, hc, hh, hn, hb], ?_, ?_, ?_, ?_, ?_, ?_⟩
  · simp [List.take_append_eq_append_take, hp]
  · simp [List.take_append_eq_append_take, List.drop_append_eq_append_drop, hp, hc]
  · simp [List.take_append_eq_append_take, List.drop_append_eq_append_drop, hp, hc, hh]
  · have e1 : p.drop 98 = [] := List.drop_eq_nil_of_le (by omega)
    have e2 : c.drop 65 = [] := List.drop_eq_nil_of_le (by omega)
    simp [List.take_append_eq_append_take, List.drop_append_eq_append_drop, hp, hc, hh, hn,
      e1, e2]
  · have e1 : p.drop 102 = [] := List.drop_eq_nil_of_le (by omega)
    have e2 : c.drop 69 = [] := List.drop_eq_nil_of_le (by omega)
    have e3 : h.drop 36 = [] := List.drop_eq_nil_of_le (by omega)
    simp [List.take_append_eq_append_take, List.drop_append_eq_append_drop, hp, hc, hh, hn,
      hb, e1, e2, e3]
  · have e1 : p.drop 106 = [] := List.drop_eq_nil_of_le (by omega)
    have e2 : c.drop 73 = [] := List.drop_eq_nil_of_le (by omega)
    have e3 : h.drop 40 = [] := List.drop_eq_nil_of_le (by omega)
    have e4 : n.drop 8 = [] := List.drop_eq_nil_of_le (by omega)
    simp [List.drop_append_eq_append_drop, hp, hc, hh, hn, hb, e1, e2, e3, e4]

/-- C2: for every `CAnonOutput` `a`, deserializing the octets produced by serializing `a`
succeeds, consumes exactly these octets and yields `a` itself: the public key, the 33
commitment octets, the outpoint, `nBlockHeight` and `nCompromised` are all restored. -/
theorem CAnonOutput_Unserialize_Serialize (a : CAnonOutput) (rest : CDataStream) :
    CAnonOutput.Unserialize (a.Serialize [] ++ rest) = some (a, rest) := by
  obtain ⟨⟨pk⟩, ⟨c⟩, ⟨⟨h⟩, ⟨n, hn⟩⟩, ht, f⟩ := a
  rw [CAnonOutput.Serialize_eq]
  simp only [List.nil_append, List.append_assoc]
  simp only [CAnonOutput.Unserialize, CCmpPubKey.Unserialize, COutPoint.Unserialize,
    uint256.Unserialize, CDataStream.read_append, ser_readdata32_append, ser_readdata8,
    List.singleton_append]
  have h1 : n % 4294967296 = n := Nat.mod_eq_of_lt hn
  have h2 : CInt.ofU32 (ht.toU32 % 4294967296) = ht := by
    have : CInt.ofU32 (ht.toU32 % 4294967296) = CInt.ofU32 ht.toU32 := by
      simp [CInt.ofU32]
    rw [this, CInt.ofU32_toU32]
  simp [h1, h2]

/-- C3: the protocol constants of `anon.h` have the values the spec fixes, and the ring-size
range from `MIN_RINGSIZE` to `MAX_RINGSIZE` is not empty. -/
theorem anon_constants :
    MIN_RINGSIZE = 3 ∧ MAX_RINGSIZE = 32 ∧ MAX_ANON_INPUTS = 32 ∧ ANON_FEE_MULTIPLIER = 2 ∧
      MIN_RINGSIZE ≤ MAX_RINGSIZE := by
  decide

/-! ## The Anonymous Output Index: tip, append, resolve -/

theorem foldr_max_ge (l : List Nat) : ∀ k ∈ l, k ≤ l.foldr max 0 := by
  induction l with
  | nil => intro k hk; simp at hk
  | cons a l ih =>
    intro k hk
    simp only [List.foldr_cons]
    rcases List.mem_cons.mp hk with h | h
    · subst h; exact Nat.le_max_left _ _
    · exact Nat.le_trans (ih k h) (Nat.le_max_right _ _)

theorem foldr_max_mem (l : List Nat) : l.foldr max 0 = 0 ∨ l.foldr max 0 ∈ l := by
  induction l with
  | nil => left; rfl
  | cons a l ih =>
    simp only [List.foldr_cons, List.mem_cons]
    rcases Nat.le_total a (l.foldr max 0) with h | h
    · rw [Nat.max_eq_right h]
      rcases ih with h0 | hm
      · left; exact h0
      · right; right; exact hm
    · rw [Nat.max_eq_left h]
      right; left; rfl

theorem RCTIndex.le_CurrentTip (idx : RCTIndex) {k : Nat} (h : k ∈ idx.store) :
    k ≤ idx.CurrentTip :=
  foldr_max_ge idx.store.keys k (AList.mem_keys.mp h)

theorem RCTIndex.Resolve_above_tip (idx : RCTIndex) {k : Nat} (h : idx.CurrentTip < k) :
    idx.Resolve k = none := by
  apply AList.lookup_eq_none.mpr
  intro hk
  exact absurd (idx.le_CurrentTip hk) (by omega)

/-- The tip is determined by the set of stored sequence indices. -/
theorem RCTIndex.CurrentTip_congr (a b : RCTIndex)
    (h : ∀ k, k ∈ a.store ↔ k ∈ b.store) : a.CurrentTip = b.CurrentTip := by
  apply Nat.le_antisymm
  · rcases foldr_max_mem a.store.keys with h0 | hm
    · unfold RCTIndex.CurrentTip; omega
    · exact b.le_CurrentTip ((h _).mp (AList.mem_keys.mpr hm))
  · rcases foldr_max_mem b.store.keys with h0 | hm
    · unfold RCTIndex.CurrentTip; omega
    · exact a.le_CurrentTip ((h _).mpr (AList.mem_keys.mpr hm))

theorem RCTIndex.next_not_mem (idx : RCTIndex) : idx.CurrentTip + 1 ∉ idx.store := by
  intro hk
  exact absurd (idx.le_CurrentTip hk) (by omega)

theorem RCTIndex.keys_Append (idx : RCTIndex) (ao : CAnonOutput) :
    (idx.Append ao).1.store.keys = (idx.CurrentTip + 1) :: idx.store.keys := by
  simp only [RCTIndex.Append, AList.keys_insert]
  rw [List.erase_of_not_mem]
  exact fun h => idx.next_not_mem (AList.mem_keys.mpr h)

theorem RCTIndex.CurrentTip_Append (idx : RCTIndex) (ao : CAnonOutput) :
    (idx.Append ao).1.CurrentTip = idx.CurrentTip + 1 := by
  have h := idx.keys_Append ao
  unfold RCTIndex.CurrentTip at h ⊢
  rw [h, List.foldr_cons]
  exact Nat.max_eq_left (Nat.le_succ _)

theorem RCTIndex.Resolve_Append_new (idx : RCTIndex) (ao : CAnonOutput) :
    (idx.Append ao).1.Resolve (idx.CurrentTip + 1) = some ao := by
  simp [RCTIndex.Append, RCTIndex.Resolve]

theorem RCTIndex.Resolve_Append_ne (idx : RCTIndex) (ao : CAnonOutput) {k : Nat}
    (h : k ≠ idx.CurrentTip + 1) : (idx.Append ao).1.Resolve k = idx.Resolve k := by
  simp [RCTIndex.Append, RCTIndex.Resolve, AList.lookup_insert_ne h]

theorem RCTIndex.CurrentTip_AppendBlock (idx : RCTIndex) (outputs : List CAnonOutput) :
    (idx.AppendBlock outputs).CurrentTip = idx.CurrentTip + outputs.length := by
  induction outputs generalizing idx with
  | nil => rfl
  | cons ao rest ih =>
    have h := ih (idx.Append ao).1
    rw [RCTIndex.CurrentTip_Append] at h
    simp only [RCTIndex.AppendBlock, List.foldl_cons, List.length_cons] at h ⊢
    omega

theorem RCTIndex.Resolve_AppendBlock_old (idx : RCTIndex) (outputs : List CAnonOutput)
    {k : Nat} (h : k ≤ idx.CurrentTip) :
    (idx.AppendBlock outputs).Resolve k = idx.Resolve k := by
  induction outputs generalizing idx with
  | nil => rfl
  | cons ao rest ih =>
    have h1 := ih (idx.Append ao).1 (by rw [RCTIndex.CurrentTip_Append]; omega)
    rw [RCTIndex.Resolve_Append_ne idx ao (by omega)] at h1
    simpa only [RCTIndex.AppendBlock, List.foldl_cons] using h1

theorem RCTIndex.Resolve_AppendBlock_new (idx : RCTIndex) (outputs : List CAnonOutput)
    (j : Nat) (h : j < outputs.length) :
    (idx.AppendBlock outputs).Resolve (idx.CurrentTip + 1 + j) = outputs[j]? := by
  induction outputs generalizing idx j with
  | nil => simp at h
  | cons ao rest ih =>
    cases j with
    | zero =>
      have h1 := RCTIndex.Resolve_AppendBlock_old (idx.Append ao).1 rest
        (k := idx.CurrentTip + 1) (by rw [RCTIndex.CurrentTip_Append])
      rw [RCTIndex.Resolve_Append_new] at h1
      simpa only [RCTIndex.AppendBlock, List.foldl_cons, Nat.add_zero, List.getElem?_cons_zero]
        using h1
    | succ j =>
      have h1 := ih (idx.Append ao).1 j (by simpa using h)
      rw [RCTIndex.CurrentTip_Append] at h1
      have e : idx.CurrentTip + 1 + (j + 1) = idx.CurrentTip + 1 + 1 + j := by omega
      rw [e]
      simpa only [RCTIndex.AppendBlock, List.foldl_cons, List.getElem?_cons_succ] using h1

theorem RCTIndex.keysAbove_tip (idx : RCTIndex) (t : Int) (h : (idx.CurrentTip : Int) ≤ t) :
    idx.keysAbove t = [] := by
  unfold RCTIndex.keysAbove
  rw [List.filter_eq_nil_iff]
  intro k hk
  have := idx.le_CurrentTip (AList.mem_keys.mpr hk)
  simp only [decide_eq_true_eq]
  omega

theorem RCTIndex.keysAbove_AppendBlock_length (idx : RCTIndex) (outputs : List CAnonOutput)
    (t : Int) (h : t ≤ (idx.CurrentTip : Int)) :
    ((idx.AppendBlock outputs).keysAbove t).length
      = (idx.keysAbove t).length + outputs.length := by
  induction outputs generalizing idx with
  | nil => rfl
  | cons ao rest ih =>
    have h1 := ih (idx.Append ao).1 (by rw [RCTIndex.CurrentTip_Append]; omega)
    have h2 : ((idx.Append ao).1.keysAbove t).length = (idx.keysAbove t).length + 1 := by
      unfold RCTIndex.keysAbove
      rw [RCTIndex.keys_Append, List.filter_cons_of_pos (by simp only [decide_eq_true_eq]; omega)]
      rfl
    simp only [RCTIndex.AppendBlock, List.foldl_cons, List.length_cons] at h1 ⊢
    omega

theorem lookup_foldl_erase (ks : List Nat) (s : AList (fun _ : Nat => CAnonOutput)) (k : Nat) :
    (ks.foldl (fun s k => s.erase k) s).lookup k = if k ∈ ks then none else s.lookup k := by
  induction ks generalizing s with
  | nil => simp
  | cons a ks ih =>
    rw [List.foldl_cons, ih]
    by_cases hk : k ∈ ks
    · simp [hk]
    · by_cases ha : k = a
      · subst ha; simp [AList.lookup_erase]
      · simp [hk, ha, AList.lookup_erase_ne ha]

theorem RCTIndex.mem_keysAbove (idx : RCTIndex) (t : Int) (k : Nat) :
    k ∈ idx.keysAbove t ↔ k ∈ idx.store ∧ t < (k : Int) := by
  simp [RCTIndex.keysAbove, AList.mem_keys]

/-- After a successful rollback the index resolves exactly the stored entries at or
below the last valid sequence index. -/
theorem RollBackRCTIndex_Resolve (spendKi : Nat → List CCmpPubKey) (idx : RCTIndex)
    (nLast nExpect : Int) (setKi : List CCmpPubKey)
    (h : ((idx.keysAbove nLast).length : Int) = nExpect) (k : Nat) :
    (RollBackRCTIndex spendKi idx nLast nExpect setKi).index.Resolve k
      = if nLast < (k : Int) then none else idx.Resolve k := by
  simp only [RollBackRCTIndex, h, if_true, RCTIndex.Resolve, lookup_foldl_erase,
    RCTIndex.mem_keysAbove]
  by_cases hk : nLast < (k : Int)
  · by_cases hm : k ∈ idx.store
    · simp [hk, hm]
    · simp [hk, hm, AList.lookup_eq_none.mpr hm]
  · simp [hk]

/-- C4: for every index state, after the outputs of a block `B1` and then of a block `B2`
are appended, `RollBackRCTIndex` called with the tip after `B1` as last valid sequence
index and the number of outputs of `B2` as expected erase count succeeds; afterwards the
index resolves exactly what it resolved after `B1` (each output of `B1` at its sequence
index, no sequence index of `B2`), and `CurrentTip()` is the last index of `B1`. -/
theorem RollBackRCTIndex_undoes_block (spendKi : Nat → List CCmpPubKey) (idx : RCTIndex)
    (B1 B2 : List CAnonOutput) (setKi : List CCmpPubKey) :
    (RollBackRCTIndex spendKi ((idx.AppendBlock B1).AppendBlock B2)
        (idx.AppendBlock B1).CurrentTip B2.length setKi).ok = true ∧
    (∀ k : Nat, (RollBackRCTIndex spendKi ((idx.AppendBlock B1).AppendBlock B2)
        (idx.AppendBlock B1).CurrentTip B2.length setKi).index.Resolve k
          = (idx.AppendBlock B1).Resolve k) ∧
    (∀ j : Fin B1.length, (RollBackRCTIndex spendKi ((idx.AppendBlock B1).AppendBlock B2)
        (idx.AppendBlock B1).CurrentTip B2.length setKi).index.Resolve
          (idx.CurrentTip + 1 + j.val) = some (B1.get j)) ∧
    (∀ j : Fin B2.length,
        ((idx.AppendBlock B1).AppendBlock B2).Resolve
          ((idx.AppendBlock B1).CurrentTip + 1 + j.val) = some (B2.get j) ∧
        (RollBackRCTIndex spendKi ((idx.AppendBlock B1).AppendBlock B2)
          (idx.AppendBlock B1).CurrentTip B2.length setKi).index.Resolve
            ((idx.AppendBlock B1).CurrentTip + 1 + j.val) = none) ∧
    (RollBackRCTIndex spendKi ((idx.AppendBlock B1).AppendBlock B2)
        (idx.AppendBlock B1).CurrentTip B2.length setKi).index.CurrentTip
          = (idx.AppendBlock B1).CurrentTip ∧
    (idx.AppendBlock B1).CurrentTip = idx.CurrentTip + B1.length := by
  have hcount : ((((idx.AppendBlock B1).AppendBlock B2).keysAbove
      ((idx.AppendBlock B1).CurrentTip : Int)).length : Int) = (B2.length : Int) := by
    rw [RCTIndex.keysAbove_AppendBlock_length _ _ _ (le_refl _),
      RCTIndex.keysAbove_tip _ _ (le_refl _)]
    simp
  have hres : ∀ k : Nat, (RollBackRCTIndex spendKi ((idx.AppendBlock B1).AppendBlock B2)
        (idx.AppendBlock B1).CurrentTip B2.length setKi).index.Resolve k
          = (idx.AppendBlock B1).Resolve k := by
    intro k
    rw [RollBackRCTIndex_Resolve _ _ _ _ _ hcount]
    by_cases hk : (idx.AppendBlock B1).CurrentTip < k
    · rw [if_pos (by exact_mod_cast hk), RCTIndex.Resolve_above_tip _ hk]
    · rw [if_neg (by exact_mod_cast hk)]
      exact RCTIndex.Resolve_AppendBlock_old _ _ (by omega)
  refine ⟨?_, hres, ?_, ?_, ?_, RCTIndex.CurrentTip_AppendBlock idx B1⟩
  · simp only [RollBackRCTIndex, hcount, if_true]
  · intro j
    rw [hres, RCTIndex.Resolve_AppendBlock_new idx B1 j.val j.isLt]
    simp
  · intro j
    refine ⟨?_, ?_⟩
    · rw [RCTIndex.Resolve_AppendBlock_new _ B2 j.val j.isLt]
      simp
    · rw [hres]
      exact RCTIndex.Resolve_above_tip _ (by omega)
  · apply RCTIndex.CurrentTip_congr
    intro k
    rw [← AList.lookup_isSome, ← AList.lookup_isSome]
    have := hres k
    simp only [RCTIndex.Resolve] at this
    rw [this]

/-- C5: for every index state and every call of `RollBackRCTIndex` in which the number of
stored outputs with sequence index greater than the last valid one differs from the
expected erase count, the call fails and the index is unchanged: every sequence index
resolves to what it resolved before the call, and the tip is what it was. -/
theorem RollBackRCTIndex_count_mismatch (spendKi : Nat → List CCmpPubKey) (idx : RCTIndex)
    (nLastValidRCTOutput nExpectErase : Int) (setKi : List CCmpPubKey)
    (h : ((idx.store.keys.filter
      (fun (k : Nat) => decide (nLastValidRCTOutput < (k : Int)))).length : Int) ≠ nExpectErase) :
    (RollBackRCTIndex spendKi idx nLastValidRCTOutput nExpectErase setKi).ok = false ∧
    (RollBackRCTIndex spendKi idx nLastValidRCTOutput nExpectErase setKi).state
      = RollbackState.Failed ∧
    (RollBackRCTIndex spendKi idx nLastValidRCTOutput nExpectErase setKi).index = idx ∧
    (∀ k : Nat,
      (RollBackRCTIndex spendKi idx nLastValidRCTOutput nExpectErase setKi).index.Resolve k
        = idx.Resolve k) ∧
    (RollBackRCTIndex spendKi idx nLastValidRCTOutput nExpectErase setKi).index.CurrentTip
      = idx.CurrentTip := by
  have e : RollBackRCTIndex spendKi idx nLastValidRCTOutput nExpectErase setKi
      = { ok := false, index := idx, setKi := setKi, state := RollbackState.Failed } := by
    simp only [RollBackRCTIndex, RCTIndex.keysAbove, h, if_false]
  rw [e]
  exact ⟨rfl, rfl, rfl, fun _ => rfl, rfl⟩

/-- Three outputs lie past the checkpoint 0 and two are expected: the rollback fails and the
three sequence indices still resolve. -/
theorem RollBackRCTIndex_count_mismatch_witness :
    (((emptyIndex.AppendBlock [sampleOutput 1, sampleOutput 2, sampleOutput 3]).store.keys.filter
      (fun (k : Nat) => decide ((0 : Int) < (k : Int)))).length : Int) ≠ 2 ∧
    (RollBackRCTIndex (fun _ => [])
      (emptyIndex.AppendBlock [sampleOutput 1, sampleOutput 2, sampleOutput 3]) 0 2 []).ok
        = false ∧
    (RollBackRCTIndex (fun _ => [])
      (emptyIndex.AppendBlock [sampleOutput 1, sampleOutput 2, sampleOutput 3]) 0 2
        []).index.Resolve 3 = some (sampleOutput 3) := by
  have hne : (((emptyIndex.AppendBlock
      [sampleOutput 1, sampleOutput 2, sampleOutput 3]).store.keys.filter
      (fun (k : Nat) => decide ((0 : Int) < (k : Int)))).length : Int) ≠ 2 := by decide
  have h := RollBackRCTIndex_count_mismatch (fun _ => [])
    (emptyIndex.AppendBlock [sampleOutput 1, sampleOutput 2, sampleOutput 3]) 0 2 [] hne
  refine ⟨hne, h.1, ?_⟩
  rw [h.2.2.2.1 3]
  decide

/-- The rollback of the spec's example: three outputs of a first block, two of a second. -/
theorem RollBackRCTIndex_undoes_block_witness :
    (RollBackRCTIndex (fun _ => [])
      ((emptyIndex.AppendBlock [sampleOutput 1, sampleOutput 2, sampleOutput 3]).AppendBlock
        [sampleOutput 4, sampleOutput 5]) 3 2 []).ok = true ∧
    (RollBackRCTIndex (fun _ => [])
      ((emptyIndex.AppendBlock [sampleOutput 1, sampleOutput 2, sampleOutput 3]).AppendBlock
        [sampleOutput 4, sampleOutput 5]) 3 2 []).index.Resolve 3 = some (sampleOutput 3) ∧
    (RollBackRCTIndex (fun _ => [])
      ((emptyIndex.AppendBlock [sampleOutput 1, sampleOutput 2, sampleOutput 3]).AppendBlock
        [sampleOutput 4, sampleOutput 5]) 3 2 []).index.Resolve 4 = none ∧
    (RollBackRCTIndex (fun _ => [])
      ((emptyIndex.AppendBlock [sampleOutput 1, sampleOutput 2, sampleOutput 3]).AppendBlock
        [sampleOutput 4, sampleOutput 5]) 3 2 []).index.CurrentTip = 3 := by
  have h := RollBackRCTIndex_undoes_block (fun _ => []) emptyIndex
    [sampleOutput 1, sampleOutput 2, sampleOutput 3] [sampleOutput 4, sampleOutput 5] []
  have ht : (emptyIndex.AppendBlock
      [sampleOutput 1, sampleOutput 2, sampleOutput 3]).CurrentTip = 3 := by decide
  rw [ht] at h
  refine ⟨h.1, ?_, ?_, h.2.2.2.2.1⟩
  · exact h.2.2.1 ⟨2, by decide⟩
  · exact (h.2.2.2.1 ⟨0, by decide⟩).2

/-! ## Mempool key images -/

theorem CTxMemPool.checkAndInsert_fresh (tracked kis : List CCmpPubKey) (pool : CTxMemPool)
    (hp : ∀ k ∈ kis, k ∉ tracked) :
    ∃ p, CTxMemPool.checkAndInsert tracked pool kis = some p ∧
      ∀ k, k ∈ p.keyImages ↔ k ∈ kis ∨ k ∈ pool.keyImages := by
  induction kis generalizing pool with
  | nil => exact ⟨pool, rfl, by simp⟩
  | cons a rest ih =>
    have ha : a ∉ tracked := hp a (List.mem_cons_self a rest)
    obtain ⟨p, hp1, hp2⟩ := ih ⟨List.insert a pool.keyImages⟩
      (fun k hk => hp k (List.mem_cons_of_mem a hk))
    refine ⟨p, ?_, ?_⟩
    · rw [CTxMemPool.checkAndInsert, if_neg ha, hp1]
    · intro k
      rw [hp2 k, List.mem_insert_iff, List.mem_cons]
      constructor
      · rintro (h | h | h)
        · exact Or.inl (Or.inr h)
        · exact Or.inl (Or.inl h)
        · exact Or.inr h
      · rintro ((h | h) | h)
        · exact Or.inr (Or.inl h)
        · exact Or.inl h
        · exact Or.inr (Or.inr h)

theorem CTxMemPool.checkAndInsert_tracked (tracked kis : List CCmpPubKey) (pool : CTxMemPool)
    (k : CCmpPubKey) (hk : k ∈ kis) (hp : k ∈ tracked) :
    CTxMemPool.checkAndInsert tracked pool kis = none := by
  induction kis generalizing pool with
  | nil => simp at hk
  | cons a rest ih =>
    rw [CTxMemPool.checkAndInsert]
    by_cases ha : a ∈ tracked
    · rw [if_pos ha]
    · rw [if_neg ha]
      rcases List.mem_cons.mp hk with e | e
      · subst e; exact absurd hp ha
      · exact ih _ e

/-- A transaction none of whose key images the pool tracks is added: the call returns
true and the pool then tracks its key images besides those it tracked. -/
theorem AddKeyImagesToMempool_fresh (tx : Transaction) (pool : CTxMemPool)
    (hp : ∀ k ∈ tx.keyImages, k ∉ pool.keyImages) :
    (AddKeyImagesToMempool tx pool).1 = true ∧
      ∀ k, k ∈ (AddKeyImagesToMempool tx pool).2.keyImages ↔
        k ∈ tx.keyImages ∨ k ∈ pool.keyImages := by
  obtain ⟨p, e, hm⟩ := CTxMemPool.checkAndInsert_fresh pool.keyImages tx.keyImages pool hp
  have e2 : AddKeyImagesToMempool tx pool = (true, p) := by
    simp only [AddKeyImagesToMempool, e]
  rw [e2]
  exact ⟨rfl, hm⟩

/-- A transaction with a key image the pool tracks is rejected and the pool is as
before. -/
theorem AddKeyImagesToMempool_tracked (tx : Transaction) (pool : CTxMemPool)
    (k : CCmpPubKey) (hk : k ∈ tx.keyImages) (hp : k ∈ pool.keyImages) :
    AddKeyImagesToMempool tx pool = (false, pool) := by
  simp only [AddKeyImagesToMempool,
    CTxMemPool.checkAndInsert_tracked pool.keyImages tx.keyImages pool k hk hp]

theorem foldl_Remove_keyImages (hash : uint256) (vin : List TxInput) (pool : CTxMemPool) :
    (vin.foldl (fun p txin => RemoveKeyImagesFromMempool hash txin p) pool).keyImages
      = pool.keyImages.filter
          (fun ki => decide (ki ∉ (vin.map TxInput.keyImages).flatten)) := by
  induction vin generalizing pool with
  | nil => simp
  | cons i rest ih =>
    rw [List.foldl_cons, ih]
    simp only [RemoveKeyImagesFromMempool, List.filter_filter, List.map_cons,
      List.flatten_cons, List.mem_append, not_or]
    apply List.filter_congr
    intro x _
    simp only [Bool.decide_and, Bool.and_comm]

theorem RemoveTxKeyImages_keyImages (tx : Transaction) (pool : CTxMemPool) :
    (RemoveTxKeyImages tx pool).keyImages
      = pool.keyImages.filter (fun ki => decide (ki ∉ tx.keyImages)) :=
  foldl_Remove_keyImages tx.hash tx.vin pool

/-- C6 as stated fails.  The two transactions share the key image `sampleKey 1`, which the
pool does not track, and yet: (a) the first add returns false when the pool tracks another
key image of the first transaction, and so does every implementation that follows the
rule of section 4.5 of the spec (a call fails if any key image already exists); (b) the
add of the second transaction after the removal returns false when the pool tracks
another key image of the second transaction. -/
theorem AddKeyImagesToMempool_counterexample :
    (sampleKey 1 ∈ (sampleTx 1 [sampleKey 1, sampleKey 2]).keyImages ∧
      sampleKey 1 ∈ (sampleTx 2 [sampleKey 1]).keyImages ∧
      sampleKey 1 ∉ (CTxMemPool.mk [sampleKey 2]).keyImages ∧
      (AddKeyImagesToMempool (sampleTx 1 [sampleKey 1, sampleKey 2])
        ⟨[sampleKey 2]⟩).1 = false ∧
      FailsOnTrackedKeyImage AddKeyImagesToMempool ∧
      ∀ add : Transaction → CTxMemPool → Bool × CTxMemPool, FailsOnTrackedKeyImage add →
        (add (sampleTx 1 [sampleKey 1, sampleKey 2]) ⟨[sampleKey 2]⟩).1 = false) ∧
    (sampleKey 1 ∈ (sampleTx 1 [sampleKey 1]).keyImages ∧
      sampleKey 1 ∈ (sampleTx 2 [sampleKey 1, sampleKey 3]).keyImages ∧
      sampleKey 1 ∉ (CTxMemPool.mk [sampleKey 3]).keyImages ∧
      (AddKeyImagesToMempool (sampleTx 1 [sampleKey 1]) ⟨[sampleKey 3]⟩).1 = true ∧
      (AddKeyImagesToMempool (sampleTx 2 [sampleKey 1, sampleKey 3])
        (AddKeyImagesToMempool (sampleTx 1 [sampleKey 1]) ⟨[sampleKey 3]⟩).2).1 = false ∧
      (AddKeyImagesToMempool (sampleTx 2 [sampleKey 1, sampleKey 3])
        (RemoveTxKeyImages (sampleTx 1 [sampleKey 1])
          (AddKeyImagesToMempool (sampleTx 2 [sampleKey 1, sampleKey 3])
            (AddKeyImagesToMempool (sampleTx 1 [sampleKey 1]) ⟨[sampleKey 3]⟩).2).2)).1
        = false) := by
  refine ⟨⟨by decide, by decide, by decide, by decide, ?_, ?_⟩,
    by decide, by decide, by decide, by decide, by decide, by decide⟩
  · intro tx pool hex
    obtain ⟨ki, h1, h2⟩ := hex
    rw [AddKeyImagesToMempool_tracked tx pool ki h1 h2]
  · intro add hadd
    exact hadd _ _ ⟨sampleKey 2, by decide, by decide⟩

/-- C6, amended: for every pool and every two transactions `t1`, `t2` that share a key
image, when the pool tracks none of the key images of `t1` and none of those of `t2`,
`AddKeyImagesToMempool(t1)` returns true, a following `AddKeyImagesToMempool(t2)` returns
false and leaves the pool as it was, and after `RemoveKeyImagesFromMempool` has then
removed the key images of `t1`, `AddKeyImagesToMempool(t2)` returns true.  The pool is
threaded through the four steps. -/
theorem AddKeyImagesToMempool_conflict (pool : CTxMemPool) (t1 t2 : Transaction)
    (ki : CCmpPubKey) (h1 : ki ∈ t1.keyImages) (h2 : ki ∈ t2.keyImages)
    (hp1 : ∀ k ∈ t1.keyImages, k ∉ pool.keyImages)
    (hp2 : ∀ k ∈ t2.keyImages, k ∉ pool.keyImages) :
    (AddKeyImagesToMempool t1 pool).1 = true ∧
    (AddKeyImagesToMempool t2 (AddKeyImagesToMempool t1 pool).2).1 = false ∧
    (AddKeyImagesToMempool t2 (AddKeyImagesToMempool t1 pool).2).2
      = (AddKeyImagesToMempool t1 pool).2 ∧
    (AddKeyImagesToMempool t2
      (RemoveTxKeyImages t1
        (AddKeyImagesToMempool t2 (AddKeyImagesToMempool t1 pool).2).2)).1 = true := by
  obtain ⟨e1, m1⟩ := AddKeyImagesToMempool_fresh t1 pool hp1
  have e2 := AddKeyImagesToMempool_tracked t2 (AddKeyImagesToMempool t1 pool).2 ki h2
    ((m1 ki).mpr (Or.inl h1))
  have e3 : ∀ k ∈ t2.keyImages,
      k ∉ (RemoveTxKeyImages t1 (AddKeyImagesToMempool t1 pool).2).keyImages := by
    intro k hk hmem
    rw [RemoveTxKeyImages_keyImages, List.mem_filter] at hmem
    have hnot : k ∉ t1.keyImages := by simpa using hmem.2
    rcases (m1 k).mp hmem.1 with h | h
    · exact hnot h
    · exact hp2 k hk h
  refine ⟨e1, ?_, ?_, ?_⟩
  · rw [e2]
  · rw [e2]
  · rw [e2]
    exact (AddKeyImagesToMempool_fresh t2 _ e3).1

/-- Two transactions spending with the key image `sampleKey 1`, the first also with
`sampleKey 2` twice, on a pool that tracks `sampleKey 9`. -/
theorem AddKeyImagesToMempool_conflict_witness :
    (AddKeyImagesToMempool (sampleTx 1 [sampleKey 1, sampleKey 2, sampleKey 2])
      ⟨[sampleKey 9]⟩).1 = true ∧
    (AddKeyImagesToMempool (sampleTx 2 [sampleKey 1])
      (AddKeyImagesToMempool (sampleTx 1 [sampleKey 1, sampleKey 2, sampleKey 2])
        ⟨[sampleKey 9]⟩).2).1 = false ∧
    (AddKeyImagesToMempool (sampleTx 2 [sampleKey 1])
      (RemoveTxKeyImages (sampleTx 1 [sampleKey 1, sampleKey 2, sampleKey 2])
        (AddKeyImagesToMempool (sampleTx 2 [sampleKey 1])
          (AddKeyImagesToMempool (sampleTx 1 [sampleKey 1, sampleKey 2, sampleKey 2])
            ⟨[sampleKey 9]⟩).2).2)).1 = true := by
  have h := AddKeyImagesToMempool_conflict ⟨[sampleKey 9]⟩
    (sampleTx 1 [sampleKey 1, sampleKey 2, sampleKey 2]) (sampleTx 2 [sampleKey 1])
    (sampleKey 1) (by decide) (by decide) (by decide) (by decide)
  exact ⟨h.1, h.2.1, h.2.2.2⟩

/-! ## Freshness guard -/

theorem RCTIndex.HavePubKey_iff (idx : RCTIndex) (pk : CCmpPubKey) :
    idx.HavePubKey pk = true ↔ ∃ k ao, idx.Resolve k = some ao ∧ ao.pubkey = pk := by
  simp only [RCTIndex.HavePubKey, List.any_eq_true, decide_eq_true_eq, RCTIndex.Resolve]
  constructor
  · rintro ⟨⟨k, ao⟩, hmem, hpk⟩
    exact ⟨k, ao, AList.mem_lookup_iff.mpr hmem, hpk⟩
  · rintro ⟨k, ao, hl, hpk⟩
    exact ⟨⟨k, ao⟩, AList.mem_lookup_iff.mp hl, hpk⟩

theorem Transaction.mem_anonOutputKeys (tx : Transaction) (pk : CCmpPubKey) :
    pk ∈ tx.anonOutputKeys ↔ ∃ c rp, TxOutput.ringct pk c rp ∈ tx.vpout := by
  simp only [Transaction.anonOutputKeys, List.mem_filterMap]
  constructor
  · rintro ⟨o, ho, hpk⟩
    cases o with
    | ringct pk2 c rp =>
      simp only [Option.some.injEq] at hpk
      subst hpk
      exact ⟨c, rp, ho⟩
    | standard v => simp at hpk
    | data d => simp at hpk
    | ct c rp => simp at hpk
  · rintro ⟨c, rp, ho⟩
    exact ⟨TxOutput.ringct pk c rp, ho, rfl⟩

/-- C7: for every transaction and every state of the Anonymous Output Index,
`AllAnonOutputsUnknown` returns false if and only if the public key of at least one
anonymous output the transaction introduces is stored at some sequence index of the
index; otherwise it returns true. -/
theorem AllAnonOutputsUnknown_iff (idx : RCTIndex) (tx : Transaction) :
    (AllAnonOutputsUnknown idx tx = false ↔
      ∃ pk c rp, TxOutput.ringct pk c rp ∈ tx.vpout ∧
        ∃ k ao, idx.Resolve k = some ao ∧ ao.pubkey = pk) ∧
    (AllAnonOutputsUnknown idx tx = true ↔
      ¬ ∃ pk c rp, TxOutput.ringct pk c rp ∈ tx.vpout ∧
        ∃ k ao, idx.Resolve k = some ao ∧ ao.pubkey = pk) := by
  have key : AllAnonOutputsUnknown idx tx = true ↔
      ¬ ∃ pk c rp, TxOutput.ringct pk c rp ∈ tx.vpout ∧
        ∃ k ao, idx.Resolve k = some ao ∧ ao.pubkey = pk := by
    simp only [AllAnonOutputsUnknown, List.all_eq_true, Bool.not_eq_true_eq_eq_false,
      Bool.not_eq_eq_eq_not, Bool.not_true]
    constructor
    · rintro h ⟨pk, c, rp, ho, hr⟩
      have h1 := h pk ((tx.mem_anonOutputKeys pk).mpr ⟨c, rp, ho⟩)
      have h2 := (idx.HavePubKey_iff pk).mpr hr
      rw [h1] at h2
      exact Bool.false_ne_true h2
    · intro h pk hpk
      obtain ⟨c, rp, ho⟩ := (tx.mem_anonOutputKeys pk).mp hpk
      cases hv : idx.HavePubKey pk with
      | false => rfl
      | true => exact absurd ⟨pk, c, rp, ho, (idx.HavePubKey_iff pk).mp hv⟩ h
  refine ⟨?_, key⟩
  rw [← not_iff_not, Bool.not_eq_false, key]

/-! ## Ring-size gate of the verifier -/

theorem Transaction.mem_ringSizes (tx : Transaction) (ki : CCmpPubKey) (ring : List Nat)
    (sig : List Byte) (h : TxInput.anon ki ring sig ∈ tx.vin) :
    ring.length ∈ tx.ringSizes := by
  simp only [Transaction.ringSizes, List.mem_filterMap]
  exact ⟨TxInput.anon ki ring sig, h, rfl⟩

/-- C8: for every transaction that has an anonymous input whose ring size `r` satisfies
`r < MIN_RINGSIZE` or `r > MAX_RINGSIZE`, `VerifyMLSAG` returns a failure (one of the
input-constraint failures), and the outcome does not depend on the cryptographic
primitives: it is the same whatever the ring-signature equation, the range proofs and the
commitment balance would answer, so it is decided before any of them is evaluated. -/
theorem VerifyMLSAG_bad_ring_size (lib lib2 : CryptoPrimitives) (idx : RCTIndex)
    (tx : Transaction) (ki : CCmpPubKey) (ring : List Nat) (sig : List Byte)
    (hin : TxInput.anon ki ring sig ∈ tx.vin)
    (hr : ring.length < MIN_RINGSIZE ∨ MAX_RINGSIZE < ring.length) :
    (VerifyMLSAG lib idx tx = Except.error MLSAGFailure.TooManyAnonInputs ∨
      VerifyMLSAG lib idx tx = Except.error MLSAGFailure.BadRingSize) ∧
    VerifyMLSAG lib idx tx ≠ Except.ok () ∧
    VerifyMLSAG lib2 idx tx = VerifyMLSAG lib idx tx := by
  have hany : tx.ringSizes.any (fun r => decide (r < MIN_RINGSIZE ∨ MAX_RINGSIZE < r))
      = true := by
    rw [List.any_eq_true]
    exact ⟨ring.length, tx.mem_ringSizes ki ring sig hin, by simpa using hr⟩
  have e : ∀ l : CryptoPrimitives, VerifyMLSAG l idx tx =
      if MAX_ANON_INPUTS < tx.ringSizes.length then
        Except.error MLSAGFailure.TooManyAnonInputs
      else Except.error MLSAGFailure.BadRingSize := by
    intro l
    simp only [VerifyMLSAG, hany, if_true]
  rw [e lib, e lib2]
  by_cases hc : MAX_ANON_INPUTS < tx.ringSizes.length
  · simp [hc]
  · simp [hc]

/-- A transaction whose only anonymous input has a ring of two members. -/
theorem VerifyMLSAG_bad_ring_size_witness :
    VerifyMLSAG acceptAll emptyIndex
        ⟨sampleHash 1, [TxInput.anon (sampleKey 1) [1, 2] []], [], 0⟩
      = Except.error MLSAGFailure.BadRingSize ∧
    VerifyMLSAG rejectAll emptyIndex
        ⟨sampleHash 1, [TxInput.anon (sampleKey 1) [1, 2] []], [], 0⟩
      = VerifyMLSAG acceptAll emptyIndex
        ⟨sampleHash 1, [TxInput.anon (sampleKey 1) [1, 2] []], [], 0⟩ := by
  have h := VerifyMLSAG_bad_ring_size acceptAll rejectAll emptyIndex
    ⟨sampleHash 1, [TxInput.anon (sampleKey 1) [1, 2] []], [], 0⟩ (sampleKey 1) [1, 2] []
    (by decide) (by decide)
  exact ⟨rfl, h.2.2⟩

/-! ## Canonical encoding of `CAnonOutput` -/

theorem writeLE_readLE (l : List Byte) : writeLE l.length (readLE l) = l := by
  induction l with
  | nil => rfl
  | cons b bs ih =>
    have hb := b.isLt
    have h1 : (b.val + 256 * readLE bs) % 256 = b.val := by omega
    have h2 : (b.val + 256 * readLE bs) / 256 = readLE bs := by omega
    simp only [List.length_cons, writeLE, readLE, byteOfNat, h1, h2, ih]

theorem readLE_lt (l : List Byte) : readLE l < 256 ^ l.length := by
  induction l with
  | nil => simp [readLE]
  | cons b bs ih =>
    have hb := b.isLt
    simp only [List.length_cons, readLE, pow_succ]
    omega

theorem CInt.toU32_ofU32 (u : Nat) (h : u < 4294967296) : (CInt.ofU32 u).toU32 = u := by
  have hm : u % 4294967296 = u := Nat.mod_eq_of_lt h
  unfold CInt.ofU32
  split
  · simp only [CInt.toU32]
    omega
  · simp only [CInt.toU32]
    omega

/-- Every string of 107 octets is the concatenation of the six fields of the layout. -/
theorem split107 (b : List Byte) (h : b.length = 107) :
    ∃ (p c : Bytes 33) (t : Bytes 32) (n g : Bytes 4) (f : Byte),
      b = p.data ++ (c.data ++ (t.data ++ (n.data ++ (g.data ++ [f])))) := by
  have h6 : (b.drop 106).length = 1 := by simp [h]
  obtain ⟨f, hf⟩ := List.length_eq_one.mp h6
  refine ⟨⟨b.take 33, by simp [h]⟩, ⟨(b.drop 33).take 33, by simp [h]⟩,
    ⟨(b.drop 66).take 32, by simp [h]⟩, ⟨(b.drop 98).take 4, by simp [h]⟩,
    ⟨(b.drop 102).take 4, by simp [h]⟩, f, ?_⟩
  simp only
  rw [← hf]
  have e1 : b.drop 106 = (b.drop 102).drop 4 := by simp
  have e2 : b.drop 102 = (b.drop 98).drop 4 := by simp
  have e3 : b.drop 98 = (b.drop 66).drop 32 := by simp
  have e4 : b.drop 66 = (b.drop 33).drop 33 := by simp
  rw [e1, List.take_append_drop, e2, List.take_append_drop, e3, List.take_append_drop, e4,
    List.take_append_drop, List.take_append_drop]

/-- Reading the six fields back and writing them again. -/
theorem CAnonOutput.Serialize_Unserialize_fields (p c : Bytes 33) (t : Bytes 32) (n g : Bytes 4)
    (f : Byte) :
    ∃ a : CAnonOutput,
      CAnonOutput.Unserialize (p.data ++ (c.data ++ (t.data ++ (n.data ++ (g.data ++ [f])))))
        = some (a, []) ∧
      a.Serialize [] = p.data ++ (c.data ++ (t.data ++ (n.data ++ (g.data ++ [f])))) := by
  have rd4 : ∀ (x : Bytes 4) (rest : CDataStream),
      ser_readdata32 (x.data ++ rest) = some (readLE x.data, rest) := by
    intro x rest
    simp only [ser_readdata32, CDataStream.read_append]
  have hn : readLE n.data < 4294967296 := by
    have := readLE_lt n.data
    rw [n.size_eq] at this
    exact this
  have hg : readLE g.data < 4294967296 := by
    have := readLE_lt g.data
    rw [g.size_eq] at this
    exact this
  have wn : writeLE 4 (readLE n.data) = n.data := by
    have := writeLE_readLE n.data
    rw [n.size_eq] at this
    exact this
  have wg : writeLE 4 (readLE g.data) = g.data := by
    have := writeLE_readLE g.data
    rw [g.size_eq] at this
    exact this
  refine ⟨⟨⟨p⟩, ⟨c⟩, ⟨⟨t⟩, ⟨readLE n.data % 4294967296, Nat.mod_lt _ (by decide)⟩⟩,
    CInt.ofU32 (readLE g.data), f⟩, ?_, ?_⟩
  · simp only [CAnonOutput.Unserialize, CCmpPubKey.Unserialize, COutPoint.Unserialize,
      uint256.Unserialize, CDataStream.read_append, rd4, ser_readdata8, List.singleton_append]
  · rw [CAnonOutput.Serialize_eq]
    simp only [List.nil_append, Nat.mod_eq_of_lt hn, CInt.toU32_ofU32 _ hg, wn, wg]

/-- C18: for every string `b` of 107 octets, deserialization succeeds, consumes the whole
string, and serializing the `CAnonOutput` obtained yields exactly `b` again; hence two
strings of 107 octets that decode to the same `CAnonOutput` are the same string. -/
theorem CAnonOutput_Serialize_Unserialize (b b2 : List Byte) (h : b.length = 107)
    (h2 : b2.length = 107) :
    (∃ a : CAnonOutput, CAnonOutput.Unserialize b = some (a, []) ∧ a.Serialize [] = b) ∧
    (CAnonOutput.Unserialize b = CAnonOutput.Unserialize b2 → b = b2) := by
  have key : ∀ x : List Byte, x.length = 107 →
      ∃ a : CAnonOutput, CAnonOutput.Unserialize x = some (a, []) ∧ a.Serialize [] = x := by
    intro x hx
    obtain ⟨p, c, t, n, g, f, e⟩ := split107 x hx
    rw [e]
    exact CAnonOutput.Serialize_Unserialize_fields p c t n g f
  refine ⟨key b h, ?_⟩
  intro heq
  obtain ⟨a, ha, hs⟩ := key b h
  obtain ⟨a2, ha2, hs2⟩ := key b2 h2
  rw [ha, ha2] at heq
  have : a = a2 := by
    have := Option.some.inj heq
    exact (Prod.mk.inj this).1
  rw [← hs, ← hs2, this]

/-- The string of 107 octets 255 decodes (height -1, output index 4294967295) and encodes
back to itself. -/
theorem CAnonOutput_Serialize_Unserialize_witness :
    (List.replicate 107 (255 : Byte)).length = 107 ∧
    ∃ a : CAnonOutput, CAnonOutput.Unserialize (List.replicate 107 (255 : Byte)) = some (a, []) ∧
      a.Serialize [] = List.replicate 107 (255 : Byte) :=
  ⟨by decide, (CAnonOutput_Serialize_Unserialize (List.replicate 107 255)
    (List.replicate 107 255) (by decide) (by decide)).1⟩

/-! ## Chain parameters -/

/-- C19, evaluated on the code: on the main and the test network the miner confirmation
window is 2016 blocks, while `nPowTargetTimespan / nPowTargetSpacing` is 960 / 128 = 7; the
window is not the quotient the comment beside its definition names. -/
theorem nMinerConfirmationWindow_vs_comment :
    CMainParams.nMinerConfirmationWindow = 2016 ∧
    CMainParams.nPowTargetTimespan / CMainParams.nPowTargetSpacing = 7 ∧
    (CMainParams.nMinerConfirmationWindow : Int)
      ≠ CMainParams.nPowTargetTimespan / CMainParams.nPowTargetSpacing ∧
    CTestNetParams.nMinerConfirmationWindow = 2016 ∧
    CTestNetParams.nPowTargetTimespan / CTestNetParams.nPowTargetSpacing = 7 ∧
    (CTestNetParams.nMinerConfirmationWindow : Int)
      ≠ CTestNetParams.nPowTargetTimespan / CTestNetParams.nPowTargetSpacing := by
  decide

/-- C20: on every network the rule-change activation threshold is the documented
percentage of the miner confirmation window of that network, rounded up to a whole block
(95% on main: 1916 of 2016; 75% on the test chains: 1512 of 2016, 108 of 144, 558 of 744),
and it never exceeds the window. -/
theorem nRuleChangeActivationThreshold_percent (chain : Chain) :
    (CreateChainParams chain).nRuleChangeActivationThreshold
      = percentRoundedUp (documentedThresholdPercent chain)
          (CreateChainParams chain).nMinerConfirmationWindow ∧
    (CreateChainParams chain).nRuleChangeActivationThreshold
      ≤ (CreateChainParams chain).nMinerConfirmationWindow ∧
    ((CreateChainParams Chain.MAIN).nRuleChangeActivationThreshold,
      (CreateChainParams Chain.MAIN).nMinerConfirmationWindow) = (1916, 2016) ∧
    ((CreateChainParams Chain.TESTNET).nRuleChangeActivationThreshold,
      (CreateChainParams Chain.TESTNET).nMinerConfirmationWindow) = (1512, 2016) ∧
    ((CreateChainParams Chain.REGTEST).nRuleChangeActivationThreshold,
      (CreateChainParams Chain.REGTEST).nMinerConfirmationWindow) = (108, 144) ∧
    ((CreateChainParams Chain.UNITTEST).nRuleChangeActivationThreshold,
      (CreateChainParams Chain.UNITTEST).nMinerConfirmationWindow) = (558, 744) := by
  cases chain <;> decide

/-! ## Outputs: `GetValue`, `SetValue`, `DeepCopy` -/

/-- C13: `GetValue` and `SetValue` are usable on standard outputs only.  For every output
the assertion `nVersion == OUTPUT_STANDARD` holds if and only if the output is a standard
output; then `GetValue` returns its `nValue` and `GetValue` after `SetValue(v)` returns `v`;
on a data, CT or RingCT output the assertion of both methods fails. -/
theorem GetValue_SetValue_standard_only (o : CTxOutBase) (value : CAmount) :
    (o.nVersion = OutputTypes.OUTPUT_STANDARD ↔
      ∃ nValue scriptPubKey, o = CTxOutBase.Standard nValue scriptPubKey) ∧
    (o.GetValue = Except.error Fault.assertFailed ↔
      o.nVersion ≠ OutputTypes.OUTPUT_STANDARD) ∧
    (o.SetValue value = Except.error Fault.assertFailed ↔
      o.nVersion ≠ OutputTypes.OUTPUT_STANDARD) ∧
    (∀ nValue scriptPubKey,
      (CTxOutBase.Standard nValue scriptPubKey).GetValue = Except.ok nValue ∧
      ((CTxOutBase.Standard nValue scriptPubKey).SetValue value).bind CTxOutBase.GetValue
        = Except.ok value) ∧
    (∀ vData, (CTxOutBase.Data vData).GetValue = Except.error Fault.assertFailed ∧
      (CTxOutBase.Data vData).SetValue value = Except.error Fault.assertFailed) ∧
    (∀ c vData spk rp, (CTxOutBase.CT c vData spk rp).GetValue
        = Except.error Fault.assertFailed ∧
      (CTxOutBase.CT c vData spk rp).SetValue value = Except.error Fault.assertFailed) ∧
    (∀ pk c vData rp, (CTxOutBase.RingCT pk c vData rp).GetValue
        = Except.error Fault.assertFailed ∧
      (CTxOutBase.RingCT pk c vData rp).SetValue value = Except.error Fault.assertFailed) := by
  refine ⟨?_, ?_, ?_, ?_, ?_, ?_, ?_⟩
  · cases o <;> simp [CTxOutBase.nVersion]
  · cases o <;> simp [CTxOutBase.GetValue, CTxOutBase.nVersion]
  · cases o <;> simp [CTxOutBase.SetValue, CTxOutBase.nVersion]
  · intro nValue scriptPubKey
    exact ⟨rfl, rfl⟩
  · intro vData
    exact ⟨rfl, rfl⟩
  · intro c vData spk rp
    exact ⟨rfl, rfl⟩
  · intro pk c vData rp
    exact ⟨rfl, rfl⟩

theorem Heap.deref_append (h x : Heap) (r : CTxOutBaseRef) (o : CTxOutBase)
    (hr : h.deref r = some o) : Heap.deref (h ++ x) r = some o := by
  cases r with
  | none => simp [Heap.deref] at hr
  | some a =>
    simp only [Heap.deref] at hr ⊢
    have ha : a < h.length := by
      rcases Nat.lt_or_ge a h.length with hlt | hge
      · exact hlt
      · rw [List.getElem?_eq_none hge] at hr
        exact absurd hr (by simp)
    rw [List.getElem?_append_left ha]
    exact hr

theorem set_length_append (h : Heap) (d o : CTxOutBase) :
    (h ++ [d]).set h.length o = h ++ [o] := by
  induction h with
  | nil => rfl
  | cons a t ih => simp only [List.cons_append, List.length_cons, List.set_cons_succ, ih]

/-- A pointer to an object of one of the four classes is copied into a new object at the
first free address. -/
theorem DeepCopyRef_four (h : Heap) (pto r : CTxOutBaseRef) (o : CTxOutBase)
    (hr : h.deref r = some o) (ho : o.GetType ∈ fourVariants) :
    DeepCopyRef h pto r = Except.ok (h ++ [o], some h.length) := by
  have hl : h.length < (h ++ [CTxOutBase.default o.GetType]).length := by simp
  cases o with
  | Plain v => simp [fourVariants, CTxOutBase.GetType, CTxOutBase.nVersion] at ho
  | Standard v s =>
    simp only [CTxOutBase.GetType, CTxOutBase.nVersion] at hl
    simp only [DeepCopyRef, hr, CTxOutBase.GetType, CTxOutBase.nVersion, Heap.MAKE_OUTPUT,
      Heap.assign, hl, if_true, Except.map, set_length_append]
  | CT c d s rp =>
    simp only [CTxOutBase.GetType, CTxOutBase.nVersion] at hl
    simp only [DeepCopyRef, hr, CTxOutBase.GetType, CTxOutBase.nVersion, Heap.MAKE_OUTPUT,
      Heap.assign, hl, if_true, Except.map, set_length_append]
  | RingCT pk c d rp =>
    simp only [CTxOutBase.GetType, CTxOutBase.nVersion] at hl
    simp only [DeepCopyRef, hr, CTxOutBase.GetType, CTxOutBase.nVersion, Heap.MAKE_OUTPUT,
      Heap.assign, hl, if_true, Except.map, set_length_append]
  | Data d =>
    simp only [CTxOutBase.GetType, CTxOutBase.nVersion] at hl
    simp only [DeepCopyRef, hr, CTxOutBase.GetType, CTxOutBase.nVersion, Heap.MAKE_OUTPUT,
      Heap.assign, hl, if_true, Except.map, set_length_append]

/-- The vector copy appends the objects pointed to, in order, after the objects that
exist, and returns their addresses. -/
theorem DeepCopy_eq (vfrom : List CTxOutBaseRef) (h : Heap) (objs : List CTxOutBase)
    (hd : vfrom.map h.deref = objs.map some) (ho : ∀ o ∈ objs, o.GetType ∈ fourVariants) :
    DeepCopy h vfrom
      = Except.ok (h ++ objs, (List.range' h.length objs.length).map some) := by
  induction vfrom generalizing h objs with
  | nil =>
    cases objs with
    | nil => simp [DeepCopy]
    | cons o os => simp at hd
  | cons r rest ih =>
    cases objs with
    | nil => simp at hd
    | cons o os =>
      simp only [List.map_cons, List.cons.injEq] at hd
      have h1 := DeepCopyRef_four h none r o hd.1 (ho o (List.mem_cons_self o os))
      have hd2 : rest.map (Heap.deref (h ++ [o])) = os.map some := by
        rw [← hd.2]
        apply List.map_congr_left
        intro x hx
        have hx2 : h.deref x ∈ os.map some := by
          rw [← hd.2]
          exact List.mem_map_of_mem _ hx
        obtain ⟨y, _, hy⟩ := List.mem_map.mp hx2
        rw [← hy]
        exact Heap.deref_append h [o] x y hy.symm
      have h2 := ih (h ++ [o]) os hd2 (fun x hx => ho x (List.mem_cons_of_mem o hx))
      simp only [DeepCopy, h1, h2, List.length_append, List.length_singleton, List.length_cons,
        List.length_nil, Nat.zero_add, List.append_assoc, List.singleton_append,
        List.range'_succ, List.map_cons]

theorem map_deref_of_some (h : Heap) (vfrom : List CTxOutBaseRef)
    (hv : ∀ r ∈ vfrom, ∃ o, h.deref r = some o ∧ o.GetType ∈ fourVariants) :
    vfrom.map h.deref = (vfrom.filterMap h.deref).map some ∧
      ∀ o ∈ vfrom.filterMap h.deref, o.GetType ∈ fourVariants := by
  induction vfrom with
  | nil => simp
  | cons r rest ih =>
    obtain ⟨o, hr, ho⟩ := hv r (List.mem_cons_self r rest)
    obtain ⟨e1, e2⟩ := ih (fun x hx => hv x (List.mem_cons_of_mem r hx))
    refine ⟨?_, ?_⟩
    · rw [List.map_cons, List.filterMap_cons_some hr, List.map_cons, hr, ← e1]
    · intro x hx
      rw [List.filterMap_cons_some hr] at hx
      rcases List.mem_cons.mp hx with e | e
      · subst e; exact ho
      · exact e2 x e

/-- C11: for every vector of non-null outputs, each of one of the four variants
(standard, data, CT, RingCT), `DeepCopy` returns a vector of the same length whose `i`-th
element points to a freshly created object (at an address no object had before the call,
different from the addresses of the other elements) that equals the object the `i`-th input
element points to, tag and contents; every object that existed before the call, hence
everything the input vector points to, is unchanged. -/
theorem DeepCopy_fresh_copies (h : Heap) (vfrom : List CTxOutBaseRef)
    (hv : ∀ r ∈ vfrom, ∃ o, h.deref r = some o ∧ o.GetType ∈ fourVariants) :
    ∃ (h2 : Heap) (vpout : List CTxOutBaseRef),
      DeepCopy h vfrom = Except.ok (h2, vpout) ∧
      vpout.length = vfrom.length ∧
      (∀ i : Fin vfrom.length, ∃ (a : Nat) (o : CTxOutBase),
        vpout[i.val]? = some (some a) ∧ h.length ≤ a ∧
        h2.deref (some a) = some o ∧ h.deref (vfrom.get i) = some o ∧
        o.GetType ∈ fourVariants) ∧
      vpout.Nodup ∧
      (∀ (r : CTxOutBaseRef) (o : CTxOutBase), h.deref r = some o → h2.deref r = some o) := by
  obtain ⟨e1, e2⟩ := map_deref_of_some h vfrom hv
  have hlen : (vfrom.filterMap h.deref).length = vfrom.length := by
    have := congrArg List.length e1
    simpa using this.symm
  refine ⟨h ++ vfrom.filterMap h.deref,
    (List.range' h.length (vfrom.filterMap h.deref).length).map some,
    DeepCopy_eq vfrom h _ e1 e2, by simp [hlen], ?_, ?_, ?_⟩
  · intro i
    have hi : i.val < (vfrom.filterMap h.deref).length := by rw [hlen]; exact i.isLt
    refine ⟨h.length + i.val, (vfrom.filterMap h.deref)[i.val], ?_, Nat.le_add_right _ _, ?_,
      ?_, e2 _ (List.getElem_mem _)⟩
    · simp [List.getElem?_map, List.getElem?_range' _ _ hi]
    · simp only [Heap.deref]
      rw [List.getElem?_append_right (Nat.le_add_right _ _)]
      simp [hi]
    · have hget : (vfrom.map h.deref)[i.val]? = ((vfrom.filterMap h.deref).map some)[i.val]? := by
        rw [← e1]
      simp only [List.getElem?_map, List.getElem?_eq_getElem i.isLt,
        List.getElem?_eq_getElem hi, Option.map_some', Option.some.injEq] at hget
      simpa using hget
  · exact (List.nodup_range' _ _).map (Option.some_injective _)
  · intro r o hr
    exact Heap.deref_append h _ r o hr

/-- The four objects of the sample heap are copied to the addresses 5, 6, 7 and 8. -/
theorem DeepCopy_fresh_copies_witness :
    (∀ r ∈ [some 0, some 1, some 2, some 3],
      ∃ o, sampleHeap.deref r = some o ∧ o.GetType ∈ fourVariants) ∧
    ∃ (h2 : Heap) (vpout : List CTxOutBaseRef),
      DeepCopy sampleHeap [some 0, some 1, some 2, some 3] = Except.ok (h2, vpout) ∧
      vpout.length = 4 ∧ vpout.Nodup := by
  have hv : ∀ r ∈ [some 0, some 1, some 2, some 3],
      ∃ o, sampleHeap.deref r = some o ∧ o.GetType ∈ fourVariants := by
    intro r hr
    simp only [List.mem_cons, List.mem_singleton, List.not_mem_nil, or_false] at hr
    rcases hr with e | e | e | e <;> subst e <;> exact ⟨_, rfl, by decide⟩
  obtain ⟨h2, vpout, e, hl, _, hn, _⟩ := DeepCopy_fresh_copies sampleHeap _ hv
  exact ⟨hv, h2, vpout, e, hl, hn⟩

/-! ## Value sums: `GetValueOut` -/

theorem CAmount.wrap_val (x : Int) (h0 : 0 ≤ x) (h1 : x < 18446744073709551616) :
    (CAmount.wrap x).val = if x < 9223372036854775808 then x else x - 18446744073709551616 := by
  have hm : x % 18446744073709551616 = x := Int.emod_eq_of_lt h0 h1
  unfold CAmount.wrap
  split <;> split <;> simp only <;> omega

theorem MoneyRange_iff (M v : CAmount) :
    MoneyRange M v = true ↔ 0 ≤ v.val ∧ v.val ≤ M.val := by
  simp [MoneyRange]

theorem sumAmounts_nonneg (M : CAmount) (l : List CAmount)
    (h : ∀ v ∈ l, 0 ≤ v.val ∧ v.val ≤ M.val) : 0 ≤ sumAmounts l := by
  induction l with
  | nil => simp [sumAmounts]
  | cons a t ih =>
    have h1 := (h a (List.mem_cons_self a t)).1
    have h2 := ih (fun v hv => h v (List.mem_cons_of_mem a hv))
    simp only [sumAmounts, List.map_cons, List.sum_cons] at h2 ⊢
    omega

theorem loopVout_eq_accumulate (M : CAmount) (vout : List CTxOut) (acc : Accumulator) :
    GetValueOut.loopVout M vout acc = accumulate M (vout.map CTxOut.nValue) acc := by
  induction vout generalizing acc with
  | nil => rfl
  | cons o rest ih => simp only [GetValueOut.loopVout, List.map_cons, accumulate, ih]

theorem loopVpout_eq_accumulate (M : CAmount) (h : Heap) (vpout : List CTxOutBaseRef)
    (acc : Accumulator) (hnn : ∀ r ∈ vpout, h.deref r ≠ none) :
    GetValueOut.loopVpout M h vpout acc = accumulate M (standardValues h vpout) acc := by
  induction vpout generalizing acc with
  | nil => rfl
  | cons r rest ih =>
    have ih2 := fun a => ih a (fun x hx => hnn x (List.mem_cons_of_mem r hx))
    have hr := hnn r (List.mem_cons_self r rest)
    cases hd : h.deref r with
    | none => exact absurd hd hr
    | some o =>
      cases o <;>
        simp [GetValueOut.loopVpout, standardValues, hd, CTxOutBase.IsStandardOutput,
          CTxOutBase.nVersion, CTxOutBase.GetValue, accumulate, ih2]

theorem accumulate_append (M : CAmount) (l1 l2 : List CAmount) (acc : Accumulator) :
    accumulate M (l1 ++ l2) acc =
      match accumulate M l1 acc with
      | Except.error e => Except.error e
      | Except.ok a => accumulate M l2 a := by
  induction l1 generalizing acc with
  | nil => rfl
  | cons v rest ih =>
    simp only [List.cons_append, accumulate]
    split
    · rfl
    · exact ih _

theorem GetValueOut_eq_accumulate (M : CAmount) (h : Heap) (tx : CTransaction)
    (hnn : ∀ r ∈ tx.vpout, h.deref r ≠ none) :
    tx.GetValueOut M h
      = accumulate M (tx.vout.map CTxOut.nValue ++ standardValues h tx.vpout)
          ⟨CAmount.zero, false⟩ := by
  rw [accumulate_append, CTransaction.GetValueOut, loopVout_eq_accumulate]
  cases accumulate M (tx.vout.map CTxOut.nValue) ⟨CAmount.zero, false⟩ with
  | error e => rfl
  | ok a => exact loopVpout_eq_accumulate M h tx.vpout a hnn

/-- The loop returns exactly when every amount is in the money range and the total does
not exceed `MAX_MONEY`; it then returns the exact total and no addition has overflowed;
otherwise it throws. -/
theorem accumulate_spec (M : CAmount) (l : List CAmount) (acc : Accumulator)
    (h0 : 0 ≤ acc.nValueOut.val) (h1 : acc.nValueOut.val ≤ M.val)
    (hf : acc.overflowed = false) :
    ((∀ v ∈ l, 0 ≤ v.val ∧ v.val ≤ M.val) ∧ acc.nValueOut.val + sumAmounts l ≤ M.val →
      ∃ a, accumulate M l acc = Except.ok a ∧
        a.nValueOut.val = acc.nValueOut.val + sumAmounts l ∧ a.overflowed = false) ∧
    (¬ ((∀ v ∈ l, 0 ≤ v.val ∧ v.val ≤ M.val) ∧ acc.nValueOut.val + sumAmounts l ≤ M.val) →
      accumulate M l acc = Except.error Fault.runtimeError) := by
  induction l generalizing acc with
  | nil =>
    refine ⟨fun _ => ⟨acc, rfl, by simp [sumAmounts], hf⟩, fun hn => ?_⟩
    exact absurd ⟨by simp, by simpa [sumAmounts] using h1⟩ hn
  | cons v rest ih =>
    have hs : sumAmounts (v :: rest) = v.val + sumAmounts rest := by
      simp [sumAmounts]
    have hMhi := M.hi
    have hvlo := v.lo
    have hvhi := v.hi
    by_cases hv : 0 ≤ v.val ∧ v.val ≤ M.val
    · have hx0 : 0 ≤ acc.nValueOut.val + v.val := by omega
      have hx1 : acc.nValueOut.val + v.val < 18446744073709551616 := by omega
      have hw := CAmount.wrap_val _ hx0 hx1
      by_cases hx : acc.nValueOut.val + v.val ≤ M.val
      · have hlt : acc.nValueOut.val + v.val < 9223372036854775808 := by omega
        rw [if_pos hlt] at hw
        have hnv : (acc.add v).nValueOut.val = acc.nValueOut.val + v.val := hw
        have hov : (acc.add v).overflowed = false := by
          simp only [Accumulator.add, hf, CAmount.addOverflows, Bool.false_or,
            decide_eq_false_iff_not]
          omega
        have hstep : accumulate M (v :: rest) acc = accumulate M rest (acc.add v) := by
          have m1 : MoneyRange M v = true := (MoneyRange_iff M v).mpr hv
          have m2 : MoneyRange M (acc.add v).nValueOut = true :=
            (MoneyRange_iff M _).mpr ⟨by omega, by omega⟩
          simp only [accumulate, m1, m2, Bool.not_true, Bool.or_self]
          rfl
        obtain ⟨ih1, ih2⟩ := ih (acc.add v) (by omega) (by omega) hov
        rw [hstep, hs]
        refine ⟨fun hc => ?_, fun hn => ?_⟩
        · obtain ⟨a, ha, hval, hfl⟩ := ih1
            ⟨fun x hx2 => hc.1 x (List.mem_cons_of_mem v hx2), by omega⟩
          exact ⟨a, ha, by omega, hfl⟩
        · apply ih2
          intro hc
          apply hn
          refine ⟨?_, by omega⟩
          intro x hx2
          rcases List.mem_cons.mp hx2 with e | e
          · subst e; exact hv
          · exact hc.1 x e
      · have m2 : MoneyRange M (acc.add v).nValueOut = false := by
          rw [Bool.eq_false_iff]
          intro hm
          have := (MoneyRange_iff M _).mp hm
          have hnv : (acc.add v).nValueOut.val
              = if acc.nValueOut.val + v.val < 9223372036854775808
                then acc.nValueOut.val + v.val
                else acc.nValueOut.val + v.val - 18446744073709551616 := hw
          split at hnv <;> omega
        have hstep : accumulate M (v :: rest) acc = Except.error Fault.runtimeError := by
          simp only [accumulate, m2, Bool.not_false, Bool.or_true]
          rfl
        rw [hstep, hs]
        refine ⟨fun hc => ?_, fun _ => rfl⟩
        have := sumAmounts_nonneg M rest (fun x hx2 => hc.1 x (List.mem_cons_of_mem v hx2))
        omega
    · have m1 : MoneyRange M v = false := by
        rw [Bool.eq_false_iff]
        intro hm
        exact hv ((MoneyRange_iff M v).mp hm)
      have hstep : accumulate M (v :: rest) acc = Except.error Fault.runtimeError := by
        simp only [accumulate, m1, Bool.not_false, Bool.true_or]
        rfl
      rw [hstep]
      refine ⟨fun hc => ?_, fun _ => rfl⟩
      exact absurd (hc.1 v (List.mem_cons_self v rest)) hv

theorem mem_standardValues (h : Heap) (vpout : List CTxOutBaseRef) (v : CAmount) :
    v ∈ standardValues h vpout ↔
      ∃ r ∈ vpout, ∃ scriptPubKey, h.deref r = some (CTxOutBase.Standard v scriptPubKey) := by
  simp only [standardValues, List.mem_filterMap]
  constructor
  · rintro ⟨r, hr, hm⟩
    cases hd : h.deref r with
    | none => simp [hd] at hm
    | some o =>
      cases o with
      | Standard w s =>
        simp only [hd, Option.some.injEq] at hm
        subst hm
        exact ⟨r, hr, s, hd⟩
      | CT c d s rp => simp [hd] at hm
      | RingCT pk c d rp => simp [hd] at hm
      | Data d => simp [hd] at hm
      | Plain w => simp [hd] at hm
  · rintro ⟨r, hr, s, hd⟩
    exact ⟨r, hr, by simp [hd]⟩

/-- C16: with the accumulator a signed 64-bit integer, for every transaction with non-null
outputs `GetValueOut` throws `runtime_error` if and only if some `vout` value or some
standard `vpout` value lies outside the money range from 0 to `MAX_MONEY`, or the total of
all these values exceeds `MAX_MONEY`; otherwise it returns exactly the sum of all `vout`
values and all standard `vpout` values, and no addition has overflowed. -/
theorem GetValueOut_throws_iff (MAX_MONEY : CAmount) (hM : 0 ≤ MAX_MONEY.val) (h : Heap)
    (tx : CTransaction) (hnn : ∀ r ∈ tx.vpout, h.deref r ≠ none) :
    (tx.GetValueOut MAX_MONEY h = Except.error Fault.runtimeError ↔
      ((∃ o ∈ tx.vout, ¬ (0 ≤ o.nValue.val ∧ o.nValue.val ≤ MAX_MONEY.val)) ∨
        (∃ r ∈ tx.vpout, ∃ nValue scriptPubKey,
          h.deref r = some (CTxOutBase.Standard nValue scriptPubKey) ∧
          ¬ (0 ≤ nValue.val ∧ nValue.val ≤ MAX_MONEY.val)) ∨
        MAX_MONEY.val < sumAmounts (tx.vout.map CTxOut.nValue)
          + sumAmounts (standardValues h tx.vpout))) ∧
    (tx.GetValueOut MAX_MONEY h ≠ Except.error Fault.runtimeError →
      ∃ a, tx.GetValueOut MAX_MONEY h = Except.ok a ∧
        a.nValueOut.val = sumAmounts (tx.vout.map CTxOut.nValue)
          + sumAmounts (standardValues h tx.vpout) ∧
        a.overflowed = false) := by
  have hsum : sumAmounts (tx.vout.map CTxOut.nValue ++ standardValues h tx.vpout)
      = sumAmounts (tx.vout.map CTxOut.nValue) + sumAmounts (standardValues h tx.vpout) := by
    simp [sumAmounts]
  obtain ⟨s1, s2⟩ := accumulate_spec MAX_MONEY
    (tx.vout.map CTxOut.nValue ++ standardValues h tx.vpout) ⟨CAmount.zero, false⟩
    (le_refl _) hM rfl
  rw [GetValueOut_eq_accumulate MAX_MONEY h tx hnn]
  have hz : (Accumulator.mk CAmount.zero false).nValueOut.val = 0 := rfl
  rw [hz, Int.zero_add, hsum] at s1 s2
  have hcond :
      ((∀ v ∈ tx.vout.map CTxOut.nValue ++ standardValues h tx.vpout,
          0 ≤ v.val ∧ v.val ≤ MAX_MONEY.val) ∧
        sumAmounts (tx.vout.map CTxOut.nValue) + sumAmounts (standardValues h tx.vpout)
          ≤ MAX_MONEY.val) ↔
      ¬ ((∃ o ∈ tx.vout, ¬ (0 ≤ o.nValue.val ∧ o.nValue.val ≤ MAX_MONEY.val)) ∨
        (∃ r ∈ tx.vpout, ∃ nValue scriptPubKey,
          h.deref r = some (CTxOutBase.Standard nValue scriptPubKey) ∧
          ¬ (0 ≤ nValue.val ∧ nValue.val ≤ MAX_MONEY.val)) ∨
        MAX_MONEY.val < sumAmounts (tx.vout.map CTxOut.nValue)
          + sumAmounts (standardValues h tx.vpout)) := by
    constructor
    · rintro ⟨hall, htot⟩ (⟨o, ho, hb⟩ | ⟨r, hr, v, s, hd, hb⟩ | hgt)
      · exact hb (hall o.nValue (List.mem_append_left _ (List.mem_map_of_mem _ ho)))
      · exact hb (hall v (List.mem_append_right _
          ((mem_standardValues h tx.vpout v).mpr ⟨r, hr, s, hd⟩)))
      · omega
    · intro hn
      refine ⟨?_, ?_⟩
      · intro v hv
        by_contra hb
        apply hn
        rcases List.mem_append.mp hv with e | e
        · obtain ⟨o, ho, rfl⟩ := List.mem_map.mp e
          exact Or.inl ⟨o, ho, hb⟩
        · obtain ⟨r, hr, s, hd⟩ := (mem_standardValues h tx.vpout v).mp e
          exact Or.inr (Or.inl ⟨r, hr, v, s, hd, hb⟩)
      · by_contra hb
        exact hn (Or.inr (Or.inr (by omega)))
  refine ⟨?_, ?_⟩
  · constructor
    · intro he
      by_contra hn
      obtain ⟨a, ha, _⟩ := s1 (hcond.mpr hn)
      rw [ha] at he
      exact absurd he (by simp)
    · intro hc
      exact s2 (fun hcc => (hcond.mp hcc) hc)
  · intro hne
    have hc : (∀ v ∈ tx.vout.map CTxOut.nValue ++ standardValues h tx.vpout,
          0 ≤ v.val ∧ v.val ≤ MAX_MONEY.val) ∧
        sumAmounts (tx.vout.map CTxOut.nValue) + sumAmounts (standardValues h tx.vpout)
          ≤ MAX_MONEY.val := by
      by_contra hb
      exact hne (s2 hb)
    exact s1 hc

/-- A transaction of the sample heap: 3 in `vout`, 5 in the standard output of `vpout`. -/
theorem GetValueOut_throws_iff_witness :
    0 ≤ sampleMaxMoney.val ∧
    (∀ r ∈ sampleCTransaction.vpout, sampleHeap.deref r ≠ none) ∧
    ∃ a, sampleCTransaction.GetValueOut sampleMaxMoney sampleHeap = Except.ok a ∧
      a.nValueOut.val = 8 ∧ a.overflowed = false := by
  have hM : 0 ≤ sampleMaxMoney.val := by decide
  have hnn : ∀ r ∈ sampleCTransaction.vpout, sampleHeap.deref r ≠ none := by decide
  have e : sampleCTransaction.GetValueOut sampleMaxMoney sampleHeap
      = Except.ok ⟨⟨8, by decide, by decide⟩, false⟩ := rfl
  obtain ⟨a, ha, hv, hf⟩ := (GetValueOut_throws_iff sampleMaxMoney hM sampleHeap
    sampleCTransaction hnn).2 (by rw [e]; simp)
  refine ⟨hM, hnn, a, ha, ?_, hf⟩
  rw [e] at ha
  have := Except.ok.inj ha
  rw [← this]

/-! ## Counters and value sum: `GetPlainValueOut` -/

theorem countType_cons (h : Heap) (r : CTxOutBaseRef) (rest : List CTxOutBaseRef)
    (o : CTxOutBase) (t : OutputTypes) (hd : h.deref r = some o) :
    countType h (r :: rest) t = countType h rest t + if o.nVersion = t then 1 else 0 := by
  simp only [countType, List.countP_cons, hd, decide_eq_true_eq]

theorem standardValues_cons_standard (h : Heap) (r : CTxOutBaseRef)
    (rest : List CTxOutBaseRef) (v : CAmount) (s : CScript)
    (hd : h.deref r = some (CTxOutBase.Standard v s)) :
    sumAmounts (standardValues h (r :: rest)) = v.val + sumAmounts (standardValues h rest) := by
  simp [standardValues, sumAmounts, List.filterMap_cons, hd]

theorem standardValues_cons_other (h : Heap) (r : CTxOutBaseRef)
    (rest : List CTxOutBaseRef) (o : CTxOutBase) (hd : h.deref r = some o)
    (ho : o.nVersion ≠ OutputTypes.OUTPUT_STANDARD) :
    standardValues h (r :: rest) = standardValues h rest := by
  cases o with
  | Standard v s => exact absurd rfl ho
  | CT c d s rp => simp [standardValues, List.filterMap_cons, hd]
  | RingCT pk c d rp => simp [standardValues, List.filterMap_cons, hd]
  | Data d => simp [standardValues, List.filterMap_cons, hd]
  | Plain w => simp [standardValues, List.filterMap_cons, hd]

/-- What the loop of `GetPlainValueOut` leaves when it returns. -/
theorem GetPlainValueOut_loop_spec (M : CAmount) (h : Heap) (vpout : List CTxOutBaseRef)
    (st st2 : PlainState) (hret : GetPlainValueOut.loop M h vpout st = Except.ok st2)
    (h0 : 0 ≤ st.nValueOut.val) (h1 : st.nValueOut.val ≤ M.val ∨ st.nValueOut.val = 0) :
    st2.nStandard.val
      = (st.nStandard.val + countType h vpout OutputTypes.OUTPUT_STANDARD)
          % 18446744073709551616 ∧
    st2.nCT.val
      = (st.nCT.val + countType h vpout OutputTypes.OUTPUT_CT) % 18446744073709551616 ∧
    st2.nRingCT.val
      = (st.nRingCT.val + countType h vpout OutputTypes.OUTPUT_RINGCT)
          % 18446744073709551616 ∧
    st2.nValueOut.val = st.nValueOut.val + sumAmounts (standardValues h vpout) := by
  induction vpout generalizing st with
  | nil =>
    have e : st2 = st := by
      simp only [GetPlainValueOut.loop, Except.ok.injEq] at hret
      exact hret.symm
    subst e
    have a1 := st2.nStandard.isLt
    have a2 := st2.nCT.isLt
    have a3 := st2.nRingCT.isLt
    simp only [countType, List.countP_nil, standardValues, List.filterMap_nil, sumAmounts,
      List.map_nil, List.sum_nil]
    omega
  | cons r rest ih =>
    have a1 := st.nStandard.isLt
    have a2 := st.nCT.isLt
    have a3 := st.nRingCT.isLt
    cases hd : h.deref r with
    | none => simp [GetPlainValueOut.loop, hd] at hret
    | some o =>
      have c1 := countType_cons h r rest o OutputTypes.OUTPUT_STANDARD hd
      have c2 := countType_cons h r rest o OutputTypes.OUTPUT_CT hd
      have c3 := countType_cons h r rest o OutputTypes.OUTPUT_RINGCT hd
      cases o with
      | Standard v s =>
        have sv := standardValues_cons_standard h r rest v s hd
        simp only [CTxOutBase.nVersion, if_true, reduceCtorEq, if_false] at c1 c2 c3
        simp only [GetPlainValueOut.loop, hd, CTxOutBase.IsType, CTxOutBase.nVersion,
          CTxOutBase.IsStandardOutput, CTxOutBase.GetValue, reduceCtorEq, decide_False,
          decide_True, if_true, if_false, Bool.false_eq_true, Bool.not_true] at hret
        split at hret
        · exact absurd hret (by simp)
        · rename_i hchk
          simp only [Bool.or_eq_true, Bool.not_eq_true', not_or, Bool.not_eq_false] at hchk
          have m1 := (MoneyRange_iff M v).mp hchk.1
          have m2 := (MoneyRange_iff M _).mp hchk.2
          have hMhi := M.hi
          have hw := CAmount.wrap_val (st.nValueOut.val + v.val) (by omega) (by omega)
          have hnv : (CAmount.wrap (st.nValueOut.val + v.val)).val
              = st.nValueOut.val + v.val := by
            split at hw <;> omega
          obtain ⟨i1, i2, i3, i4⟩ := ih _ hret (by simp only; omega)
            (Or.inl (by simp only; omega))
          simp only [size_t.incr] at i1 i2 i3 i4
          rw [c1, c2, c3, sv]
          refine ⟨?_, ?_, ?_, ?_⟩ <;> omega
      | CT c d s rp =>
        have sv := standardValues_cons_other h r rest _ hd (by simp [CTxOutBase.nVersion])
        simp only [CTxOutBase.nVersion, if_true, reduceCtorEq, if_false] at c1 c2 c3
        simp only [GetPlainValueOut.loop, hd, CTxOutBase.IsType, CTxOutBase.nVersion,
          CTxOutBase.IsStandardOutput, reduceCtorEq, decide_False,
          decide_True, if_true, if_false, Bool.false_eq_true, Bool.not_false] at hret
        obtain ⟨i1, i2, i3, i4⟩ := ih _ hret (by simpa using h0) (by simpa using h1)
        simp only [size_t.incr] at i1 i2 i3 i4
        rw [c1, c2, c3, sv]
        refine ⟨?_, ?_, ?_, ?_⟩ <;> omega
      | RingCT pk c d rp =>
        have sv := standardValues_cons_other h r rest _ hd (by simp [CTxOutBase.nVersion])
        simp only [CTxOutBase.nVersion, if_true, reduceCtorEq, if_false] at c1 c2 c3
        simp only [GetPlainValueOut.loop, hd, CTxOutBase.IsType, CTxOutBase.nVersion,
          CTxOutBase.IsStandardOutput, reduceCtorEq, decide_False,
          decide_True, if_true, if_false, Bool.false_eq_true, Bool.not_false] at hret
        obtain ⟨i1, i2, i3, i4⟩ := ih _ hret (by simpa using h0) (by simpa using h1)
        simp only [size_t.incr] at i1 i2 i3 i4
        rw [c1, c2, c3, sv]
        refine ⟨?_, ?_, ?_, ?_⟩ <;> omega
      | Data d =>
        have sv := standardValues_cons_other h r rest _ hd (by simp [CTxOutBase.nVersion])
        simp only [CTxOutBase.nVersion, if_true, reduceCtorEq, if_false] at c1 c2 c3
        simp only [GetPlainValueOut.loop, hd, CTxOutBase.IsType, CTxOutBase.nVersion,
          CTxOutBase.IsStandardOutput, reduceCtorEq, decide_False,
          decide_True, if_true, if_false, Bool.false_eq_true, Bool.not_false] at hret
        obtain ⟨i1, i2, i3, i4⟩ := ih _ hret h0 h1
        rw [c1, c2, c3, sv]
        refine ⟨?_, ?_, ?_, ?_⟩ <;> omega
      | Plain w =>
        have sv := standardValues_cons_other h r rest _ hd (by simp [CTxOutBase.nVersion])
        simp only [CTxOutBase.nVersion, if_true, reduceCtorEq, if_false] at c1 c2 c3
        simp only [GetPlainValueOut.loop, hd, CTxOutBase.IsType, CTxOutBase.nVersion,
          CTxOutBase.IsStandardOutput, reduceCtorEq, decide_False,
          decide_True, if_true, if_false, Bool.false_eq_true, Bool.not_false] at hret
        obtain ⟨i1, i2, i3, i4⟩ := ih _ hret h0 h1
        rw [c1, c2, c3, sv]
        refine ⟨?_, ?_, ?_, ?_⟩ <;> omega

/-- C12 as stated fails: with `nStandard` initially 2^64 - 1 and one standard output in
`vpout`, the call returns and leaves `nStandard` = 0, not 2^64 - 1 + 1. -/
theorem GetPlainValueOut_counterexample :
    ∃ st, sampleCTransaction.GetPlainValueOut sampleMaxMoney sampleHeap
        ⟨18446744073709551615, by decide⟩ 0 0 = Except.ok st ∧
      countType sampleHeap sampleCTransaction.vpout OutputTypes.OUTPUT_STANDARD = 1 ∧
      st.nStandard.val = 0 ∧
      st.nStandard.val ≠ 18446744073709551615
        + countType sampleHeap sampleCTransaction.vpout OutputTypes.OUTPUT_STANDARD :=
  ⟨_, rfl, by decide, by decide, by decide⟩

/-- C12, amended: for every transaction and all initial values `s`, `c`, `r` of the
counters, a call of `GetPlainValueOut` that returns leaves `nStandard`, `nCT`, `nRingCT`
equal to `s`, `c`, `r` plus the number of standard, CT, RingCT outputs in `vpout`, reduced
modulo 2^64 (the counters are of type `size_t`; they are added to, never reset), which is
the plain sum whenever that is below 2^64, and it returns the sum of the values of the
standard outputs in `vpout`. -/
theorem GetPlainValueOut_counters (MAX_MONEY : CAmount) (h : Heap) (tx : CTransaction)
    (s c r : size_t) (st : PlainState)
    (hret : tx.GetPlainValueOut MAX_MONEY h s c r = Except.ok st) :
    st.nStandard.val
      = (s.val + countType h tx.vpout OutputTypes.OUTPUT_STANDARD) % 18446744073709551616 ∧
    st.nCT.val
      = (c.val + countType h tx.vpout OutputTypes.OUTPUT_CT) % 18446744073709551616 ∧
    st.nRingCT.val
      = (r.val + countType h tx.vpout OutputTypes.OUTPUT_RINGCT) % 18446744073709551616 ∧
    st.nValueOut.val = sumAmounts (standardValues h tx.vpout) ∧
    (s.val + countType h tx.vpout OutputTypes.OUTPUT_STANDARD < 18446744073709551616 →
      st.nStandard.val = s.val + countType h tx.vpout OutputTypes.OUTPUT_STANDARD) ∧
    (c.val + countType h tx.vpout OutputTypes.OUTPUT_CT < 18446744073709551616 →
      st.nCT.val = c.val + countType h tx.vpout OutputTypes.OUTPUT_CT) ∧
    (r.val + countType h tx.vpout OutputTypes.OUTPUT_RINGCT < 18446744073709551616 →
      st.nRingCT.val = r.val + countType h tx.vpout OutputTypes.OUTPUT_RINGCT) := by
  obtain ⟨i1, i2, i3, i4⟩ := GetPlainValueOut_loop_spec MAX_MONEY h tx.vpout
    ⟨CAmount.zero, s, c, r⟩ st hret (le_refl _) (Or.inr rfl)
  have hz : (PlainState.mk CAmount.zero s c r).nValueOut.val = 0 := rfl
  rw [hz, Int.zero_add] at i4
  simp only at i1 i2 i3
  refine ⟨i1, i2, i3, i4, ?_, ?_, ?_⟩
  · intro hlt; rw [i1]; exact Nat.mod_eq_of_lt hlt
  · intro hlt; rw [i2]; exact Nat.mod_eq_of_lt hlt
  · intro hlt; rw [i3]; exact Nat.mod_eq_of_lt hlt

/-- The sample transaction with the counters initially 10, 20 and 30: one output of each
kind is counted and the value returned is 5. -/
theorem GetPlainValueOut_counters_witness :
    ∃ st, sampleCTransaction.GetPlainValueOut sampleMaxMoney sampleHeap 10 20 30
        = Except.ok st ∧
      st.nStandard.val = 11 ∧ st.nCT.val = 21 ∧ st.nRingCT.val = 31 ∧
      st.nValueOut.val = 5 := by
  have e : sampleCTransaction.GetPlainValueOut sampleMaxMoney sampleHeap 10 20 30
      = Except.ok ⟨⟨5, by decide, by decide⟩, 11, 21, 31⟩ := rfl
  have hspec := GetPlainValueOut_counters sampleMaxMoney sampleHeap sampleCTransaction
    10 20 30 _ e
  exact ⟨_, e, rfl, rfl, rfl, hspec.2.2.2.1.trans (by decide)⟩

/-! ## The assertion of `GetValue` is never triggered -/

theorem accumulate_ok_or_throw (M : CAmount) (l : List CAmount) (acc : Accumulator) :
    (∃ a, accumulate M l acc = Except.ok a) ∨
      accumulate M l acc = Except.error Fault.runtimeError := by
  induction l generalizing acc with
  | nil => exact Or.inl ⟨acc, rfl⟩
  | cons v rest ih =>
    simp only [accumulate]
    split
    · exact Or.inr rfl
    · exact ih _

theorem GetPlainValueOut_loop_ok_or_throw (M : CAmount) (h : Heap)
    (vpout : List CTxOutBaseRef) (st : PlainState)
    (hnn : ∀ r ∈ vpout, h.deref r ≠ none) :
    (∃ a, GetPlainValueOut.loop M h vpout st = Except.ok a) ∨
      GetPlainValueOut.loop M h vpout st = Except.error Fault.runtimeError := by
  induction vpout generalizing st with
  | nil => exact Or.inl ⟨st, rfl⟩
  | cons r rest ih =>
    have ih2 := fun a => ih a (fun x hx => hnn x (List.mem_cons_of_mem r hx))
    have hr := hnn r (List.mem_cons_self r rest)
    cases hd : h.deref r with
    | none => exact absurd hd hr
    | some o =>
      cases o with
      | Standard v s =>
        simp only [GetPlainValueOut.loop, hd, CTxOutBase.IsType, CTxOutBase.nVersion,
          CTxOutBase.IsStandardOutput, CTxOutBase.GetValue, reduceCtorEq, decide_False,
          decide_True, if_true, if_false, Bool.false_eq_true, Bool.not_true]
        split
        · exact Or.inr rfl
        · exact ih2 _
      | CT c d s rp =>
        simp only [GetPlainValueOut.loop, hd, CTxOutBase.IsType, CTxOutBase.nVersion,
          CTxOutBase.IsStandardOutput, reduceCtorEq, decide_False,
          decide_True, if_true, if_false, Bool.false_eq_true, Bool.not_false]
        exact ih2 _
      | RingCT pk c d rp =>
        simp only [GetPlainValueOut.loop, hd, CTxOutBase.IsType, CTxOutBase.nVersion,
          CTxOutBase.IsStandardOutput, reduceCtorEq, decide_False,
          decide_True, if_true, if_false, Bool.false_eq_true, Bool.not_false]
        exact ih2 _
      | Data d =>
        simp only [GetPlainValueOut.loop, hd, CTxOutBase.IsType, CTxOutBase.nVersion,
          CTxOutBase.IsStandardOutput, reduceCtorEq, decide_False,
          decide_True, if_true, if_false, Bool.false_eq_true, Bool.not_false]
        exact ih2 _
      | Plain w =>
        simp only [GetPlainValueOut.loop, hd, CTxOutBase.IsType, CTxOutBase.nVersion,
          CTxOutBase.IsStandardOutput, reduceCtorEq, decide_False,
          decide_True, if_true, if_false, Bool.false_eq_true, Bool.not_false]
        exact ih2 _

/-- C17: for every transaction whose `vpout` entries are non-null, neither `GetValueOut`
nor `GetPlainValueOut` ends in the assertion of `GetValue`: each returns or throws
`runtime_error`, because `GetValue` is called only on outputs for which
`IsStandardOutput` holds, and on these its assertion `nVersion == OUTPUT_STANDARD` is
satisfied and it returns a value. -/
theorem GetValue_assertion_never_fails (MAX_MONEY : CAmount) (h : Heap) (tx : CTransaction)
    (nStandard nCT nRingCT : size_t) (hnn : ∀ r ∈ tx.vpout, h.deref r ≠ none) :
    ((∃ a, tx.GetValueOut MAX_MONEY h = Except.ok a) ∨
      tx.GetValueOut MAX_MONEY h = Except.error Fault.runtimeError) ∧
    tx.GetValueOut MAX_MONEY h ≠ Except.error Fault.assertFailed ∧
    ((∃ st, tx.GetPlainValueOut MAX_MONEY h nStandard nCT nRingCT = Except.ok st) ∨
      tx.GetPlainValueOut MAX_MONEY h nStandard nCT nRingCT
        = Except.error Fault.runtimeError) ∧
    tx.GetPlainValueOut MAX_MONEY h nStandard nCT nRingCT
      ≠ Except.error Fault.assertFailed ∧
    (∀ o : CTxOutBase, o.IsStandardOutput = true →
      o.nVersion = OutputTypes.OUTPUT_STANDARD ∧ ∃ v, o.GetValue = Except.ok v) := by
  have g1 : (∃ a, tx.GetValueOut MAX_MONEY h = Except.ok a) ∨
      tx.GetValueOut MAX_MONEY h = Except.error Fault.runtimeError := by
    rw [GetValueOut_eq_accumulate MAX_MONEY h tx hnn]
    exact accumulate_ok_or_throw _ _ _
  have g2 : (∃ st, tx.GetPlainValueOut MAX_MONEY h nStandard nCT nRingCT = Except.ok st) ∨
      tx.GetPlainValueOut MAX_MONEY h nStandard nCT nRingCT
        = Except.error Fault.runtimeError :=
    GetPlainValueOut_loop_ok_or_throw MAX_MONEY h tx.vpout _ hnn
  refine ⟨g1, ?_, g2, ?_, ?_⟩
  · rcases g1 with ⟨a, ha⟩ | he
    · rw [ha]; simp
    · rw [he]; simp
  · rcases g2 with ⟨a, ha⟩ | he
    · rw [ha]; simp
    · rw [he]; simp
  · intro o ho
    cases o <;> simp [CTxOutBase.IsStandardOutput, CTxOutBase.nVersion] at ho
    exact ⟨rfl, _, rfl⟩

/-- On the sample transaction both methods return. -/
theorem GetValue_assertion_never_fails_witness :
    (∀ r ∈ sampleCTransaction.vpout, sampleHeap.deref r ≠ none) ∧
    sampleCTransaction.GetValueOut sampleMaxMoney sampleHeap
      ≠ Except.error Fault.assertFailed ∧
    sampleCTransaction.GetPlainValueOut sampleMaxMoney sampleHeap 0 0 0
      ≠ Except.error Fault.assertFailed := by
  have hnn : ∀ r ∈ sampleCTransaction.vpout, sampleHeap.deref r ≠ none := by decide
  have hspec := GetValue_assertion_never_fails sampleMaxMoney sampleHeap sampleCTransaction
    0 0 0 hnn
  exact ⟨hnn, hspec.2.1, hspec.2.2.2.1⟩

/-! ## `ParseOutputType` and `FormatOutputType` -/

/-- C22: `ParseOutputType` and `FormatOutputType` are mutually inverse.  For each of the
three output types `t`, `FormatOutputType(t)` returns a string on which `ParseOutputType`
returns true and yields `t`; for every string `s`, `ParseOutputType(s)` returns true
exactly when `s` is one of "legacy", "p2sh-segwit", "bech32", and then `FormatOutputType`
of the parsed type is `s`; on any other string it returns false and leaves `output_type`
as it was. -/
theorem ParseOutputType_FormatOutputType (s : std_string) (output_type : OutputType) :
    (FormatOutputType OutputType.LEGACY = Except.ok (ofAscii "legacy") ∧
      ParseOutputType (ofAscii "legacy") output_type = (true, OutputType.LEGACY)) ∧
    (FormatOutputType OutputType.P2SH_SEGWIT = Except.ok (ofAscii "p2sh-segwit") ∧
      ParseOutputType (ofAscii "p2sh-segwit") output_type
        = (true, OutputType.P2SH_SEGWIT)) ∧
    (FormatOutputType OutputType.BECH32 = Except.ok (ofAscii "bech32") ∧
      ParseOutputType (ofAscii "bech32") output_type = (true, OutputType.BECH32)) ∧
    ((ParseOutputType s output_type).1 = true ↔
      s ∈ [ofAscii "legacy", ofAscii "p2sh-segwit", ofAscii "bech32"]) ∧
    (ParseOutputType s output_type = (false, output_type) ∨
      ((ParseOutputType s output_type).1 = true ∧
        FormatOutputType (ParseOutputType s output_type).2 = Except.ok s)) ∧
    (s ∉ [ofAscii "legacy", ofAscii "p2sh-segwit", ofAscii "bech32"] ↔
      ParseOutputType s output_type = (false, output_type)) := by
  have d12 : OUTPUT_TYPE_STRING_LEGACY ≠ OUTPUT_TYPE_STRING_P2SH_SEGWIT := by decide
  have d13 : OUTPUT_TYPE_STRING_LEGACY ≠ OUTPUT_TYPE_STRING_BECH32 := by decide
  have d23 : OUTPUT_TYPE_STRING_P2SH_SEGWIT ≠ OUTPUT_TYPE_STRING_BECH32 := by decide
  have p1 : ∀ ot, ParseOutputType OUTPUT_TYPE_STRING_LEGACY ot = (true, OutputType.LEGACY) := by
    intro ot; simp [ParseOutputType]
  have p2 : ∀ ot, ParseOutputType OUTPUT_TYPE_STRING_P2SH_SEGWIT ot
      = (true, OutputType.P2SH_SEGWIT) := by
    intro ot; simp [ParseOutputType, d12.symm]
  have p3 : ∀ ot, ParseOutputType OUTPUT_TYPE_STRING_BECH32 ot
      = (true, OutputType.BECH32) := by
    intro ot; simp [ParseOutputType, d13.symm, d23.symm]
  have p4 : s ≠ OUTPUT_TYPE_STRING_LEGACY → s ≠ OUTPUT_TYPE_STRING_P2SH_SEGWIT →
      s ≠ OUTPUT_TYPE_STRING_BECH32 → ParseOutputType s output_type = (false, output_type) := by
    intro h1 h2 h3; simp [ParseOutputType, h1, h2, h3]
  change (FormatOutputType OutputType.LEGACY = Except.ok OUTPUT_TYPE_STRING_LEGACY ∧
      ParseOutputType OUTPUT_TYPE_STRING_LEGACY output_type = (true, OutputType.LEGACY)) ∧
    (FormatOutputType OutputType.P2SH_SEGWIT = Except.ok OUTPUT_TYPE_STRING_P2SH_SEGWIT ∧
      ParseOutputType OUTPUT_TYPE_STRING_P2SH_SEGWIT output_type
        = (true, OutputType.P2SH_SEGWIT)) ∧
    (FormatOutputType OutputType.BECH32 = Except.ok OUTPUT_TYPE_STRING_BECH32 ∧
      ParseOutputType OUTPUT_TYPE_STRING_BECH32 output_type = (true, OutputType.BECH32)) ∧
    ((ParseOutputType s output_type).1 = true ↔
      s ∈ [OUTPUT_TYPE_STRING_LEGACY, OUTPUT_TYPE_STRING_P2SH_SEGWIT,
        OUTPUT_TYPE_STRING_BECH32]) ∧
    (ParseOutputType s output_type = (false, output_type) ∨
      ((ParseOutputType s output_type).1 = true ∧
        FormatOutputType (ParseOutputType s output_type).2 = Except.ok s)) ∧
    (s ∉ [OUTPUT_TYPE_STRING_LEGACY, OUTPUT_TYPE_STRING_P2SH_SEGWIT,
        OUTPUT_TYPE_STRING_BECH32] ↔
      ParseOutputType s output_type = (false, output_type))
  refine ⟨⟨rfl, p1 _⟩, ⟨rfl, p2 _⟩, ⟨rfl, p3 _⟩, ?_, ?_, ?_⟩
  · by_cases h1 : s = OUTPUT_TYPE_STRING_LEGACY
    · subst h1; simp [p1]
    · by_cases h2 : s = OUTPUT_TYPE_STRING_P2SH_SEGWIT
      · subst h2; simp [p2]
      · by_cases h3 : s = OUTPUT_TYPE_STRING_BECH32
        · subst h3; simp [p3]
        · simp [p4 h1 h2 h3, h1, h2, h3]
  · by_cases h1 : s = OUTPUT_TYPE_STRING_LEGACY
    · subst h1; right; rw [p1]; exact ⟨rfl, rfl⟩
    · by_cases h2 : s = OUTPUT_TYPE_STRING_P2SH_SEGWIT
      · subst h2; right; rw [p2]; exact ⟨rfl, rfl⟩
      · by_cases h3 : s = OUTPUT_TYPE_STRING_BECH32
        · subst h3; right; rw [p3]; exact ⟨rfl, rfl⟩
        · left; exact p4 h1 h2 h3
  · by_cases h1 : s = OUTPUT_TYPE_STRING_LEGACY
    · subst h1; simp [p1]
    · by_cases h2 : s = OUTPUT_TYPE_STRING_P2SH_SEGWIT
      · subst h2; simp [p2]
      · by_cases h3 : s = OUTPUT_TYPE_STRING_BECH32
        · subst h3; simp [p3]
        · simp [p4 h1 h2 h3, h1, h2, h3]

/-! ## Round trip between `CMutableTransaction` and `CTransaction` -/

/-- The pointers `DeepCopy` returns refer, in the heap it leaves, to the objects copied. -/
theorem deref_fresh (h : Heap) (objs : List CTxOutBase) :
    ((List.range' h.length objs.length).map some).map (Heap.deref (h ++ objs))
      = objs.map some := by
  apply List.ext_getElem?
  intro i
  by_cases hi : i < objs.length
  · simp only [List.getElem?_map, List.getElem?_range' _ _ hi, Option.map_some', Heap.deref,
      List.getElem?_eq_getElem hi]
    rw [List.getElem?_append_right (Nat.le_add_right _ _)]
    simp [hi]
  · have hi2 : objs.length ≤ i := Nat.le_of_not_lt hi
    rw [List.getElem?_eq_none (by simpa using hi2), List.getElem?_eq_none (by simpa using hi2)]

/-- C21: for every mutable transaction `m` whose `vpout` entries are non-null and each one
of the four output variants, converting `m` to a `CTransaction` and back to a
`CMutableTransaction` succeeds and gives a transaction with the same `vin`, `vout`,
`nVersion` and `nLockTime` and a `vpout` of the same length whose elements point to
objects equal to those of `m`, tag and contents, while the objects of `m` are unchanged;
hence `CTransaction(m).GetHash()` equals `m.GetHash()`, both being the same serialization
hash of these members, and so does the hash of the transaction converted back. -/
theorem CTransaction_roundtrip (lib : HashPrimitives) (h : Heap) (m : CMutableTransaction)
    (hv : ∀ r ∈ m.vpout, ∃ o, h.deref r = some o ∧ o.GetType ∈ fourVariants) :
    ∃ (h1 : Heap) (tx : CachedTransaction) (h2 : Heap) (m2 : CMutableTransaction),
      CTransaction.ofMutable lib h m = Except.ok (h1, tx) ∧
      CMutableTransaction.ofTransaction h1 tx.toCTransaction = Except.ok (h2, m2) ∧
      m2.vin = m.vin ∧ m2.vout = m.vout ∧ m2.nVersion = m.nVersion ∧
      m2.nLockTime = m.nLockTime ∧
      m2.vpout.length = m.vpout.length ∧
      m2.vpout.map h2.deref = m.vpout.map h.deref ∧
      m.vpout.map h2.deref = m.vpout.map h.deref ∧
      tx.GetHash = m.GetHash lib h ∧
      m2.GetHash lib h2 = m.GetHash lib h := by
  obtain ⟨e1, e2⟩ := map_deref_of_some h m.vpout hv
  have hlen : (m.vpout.filterMap h.deref).length = m.vpout.length := by
    have := congrArg List.length e1
    simpa using this.symm
  have c1 := DeepCopy_eq m.vpout h _ e1 e2
  have d1 := deref_fresh h (m.vpout.filterMap h.deref)
  have c2 := DeepCopy_eq ((List.range' h.length (m.vpout.filterMap h.deref).length).map some)
    (h ++ m.vpout.filterMap h.deref) _ d1 e2
  have d2 := deref_fresh (h ++ m.vpout.filterMap h.deref) (m.vpout.filterMap h.deref)
  have hold : m.vpout.map (Heap.deref (h ++ m.vpout.filterMap h.deref
      ++ m.vpout.filterMap h.deref)) = m.vpout.map h.deref := by
    apply List.map_congr_left
    intro r hr
    obtain ⟨o, ho, _⟩ := hv r hr
    rw [ho, List.append_assoc]
    exact Heap.deref_append h _ r o ho
  have r1 : ∃ tx : CachedTransaction,
      CTransaction.ofMutable lib h m = Except.ok (h ++ m.vpout.filterMap h.deref, tx) ∧
      tx.toCTransaction = ⟨m.vin, m.vout,
        (List.range' h.length (m.vpout.filterMap h.deref).length).map some,
        m.nVersion, m.nLockTime⟩ ∧
      tx.hash = CTransaction.ComputeHash lib (h ++ m.vpout.filterMap h.deref) ⟨m.vin, m.vout,
        (List.range' h.length (m.vpout.filterMap h.deref).length).map some,
        m.nVersion, m.nLockTime⟩ := by
    rw [CTransaction.ofMutable, c1]
    exact ⟨_, rfl, rfl, rfl⟩
  obtain ⟨tx, t1, t2, t3⟩ := r1
  have r2 : ∃ m2 : CMutableTransaction,
      CMutableTransaction.ofTransaction (h ++ m.vpout.filterMap h.deref) tx.toCTransaction
        = Except.ok (h ++ m.vpout.filterMap h.deref ++ m.vpout.filterMap h.deref, m2) ∧
      m2 = ⟨m.vin, m.vout,
        (List.range' (h ++ m.vpout.filterMap h.deref).length
          (m.vpout.filterMap h.deref).length).map some,
        m.nVersion, m.nLockTime⟩ := by
    rw [t2, CMutableTransaction.ofTransaction, c2]
    exact ⟨_, rfl, rfl⟩
  obtain ⟨m2, u1, u2⟩ := r2
  refine ⟨h ++ m.vpout.filterMap h.deref, tx,
    h ++ m.vpout.filterMap h.deref ++ m.vpout.filterMap h.deref, m2, t1, u1, ?_⟩
  subst u2
  refine ⟨rfl, rfl, rfl, rfl, by simp [hlen], ?_, hold, ?_, ?_⟩
  · rw [d2, e1]
  · simp only [CachedTransaction.GetHash, t3, CTransaction.ComputeHash,
      CMutableTransaction.GetHash, d1, e1]
  · simp only [CMutableTransaction.GetHash, d2, e1]

/-- The sample mutable transaction survives the round trip with its hash. -/
theorem CTransaction_roundtrip_witness :
    (∀ r ∈ sampleMutableTransaction.vpout,
      ∃ o, sampleHeap.deref r = some o ∧ o.GetType ∈ fourVariants) ∧
    ∃ (h1 : Heap) (tx : CachedTransaction) (h2 : Heap) (m2 : CMutableTransaction),
      CTransaction.ofMutable sampleHashPrimitives sampleHeap sampleMutableTransaction
        = Except.ok (h1, tx) ∧
      CMutableTransaction.ofTransaction h1 tx.toCTransaction = Except.ok (h2, m2) ∧
      m2.vpout = [some 9, some 10, some 11, some 12] ∧
      tx.GetHash = sampleMutableTransaction.GetHash sampleHashPrimitives sampleHeap := by
  have hv : ∀ r ∈ sampleMutableTransaction.vpout,
      ∃ o, sampleHeap.deref r = some o ∧ o.GetType ∈ fourVariants := by
    intro r hr
    simp only [sampleMutableTransaction, List.mem_cons, List.mem_singleton,
      List.not_mem_nil, or_false] at hr
    rcases hr with e | e | e | e <;> subst e <;> exact ⟨_, rfl, by decide⟩
  obtain ⟨h1, tx, h2, m2, a1, a2, _, _, _, _, _, _, _, a3, _⟩ :=
    CTransaction_roundtrip sampleHashPrimitives sampleHeap sampleMutableTransaction hv
  refine ⟨hv, h1, tx, h2, m2, a1, a2, ?_, a3⟩
  have b1 : CTransaction.ofMutable sampleHashPrimitives sampleHeap sampleMutableTransaction
      = Except.ok (sampleHeap ++ sampleHeap.take 4,
          { vin := []
            vout := [⟨⟨3, by decide, by decide⟩, []⟩]
            vpout := [some 5, some 6, some 7, some 8]
            nVersion := ⟨2, by decide, by decide⟩
            nLockTime := 0
            hash := sampleHash 18
            m_witness_hash := sampleHash 18 }) := rfl
  rw [b1] at a1
  have b2 := Except.ok.inj a1
  have b3 : h1 = sampleHeap ++ sampleHeap.take 4 := (Prod.mk.inj b2).1.symm
  have b4 := (Prod.mk.inj b2).2
  subst b3
  rw [← b4] at a2
  have b5 : CMutableTransaction.ofTransaction (sampleHeap ++ sampleHeap.take 4)
      { vin := []
        vout := [⟨⟨3, by decide, by decide⟩, []⟩]
        vpout := [some 5, some 6, some 7, some 8]
        nVersion := ⟨2, by decide, by decide⟩
        nLockTime := 0 }
      = Except.ok (sampleHeap ++ sampleHeap.take 4 ++ sampleHeap.take 4,
          { vin := []
            vout := [⟨⟨3, by decide, by decide⟩, []⟩]
            vpout := [some 9, some 10, some 11, some 12]
            nVersion := ⟨2, by decide, by decide⟩
            nLockTime := 0 }) := rfl
  rw [b5] at a2
  have b6 := (Prod.mk.inj (Except.ok.inj a2)).2
  rw [← b6]

end Globe
